import Mathlib

/-!
Verification of the probability core of the svwb-prob-calc repository.

The core consists of four pure numeric functions (source: `src/unnamed/part_000`
and `src/unnamed/part_001`):

* `clamp(value, min, max)`
* `combination(n, k)`            - C(n,k) as a running product of rationals
* `zeroHitHypergeometricRatio`   - probability of drawing zero targets
* `probabilityAtLeastOne`        - keep / noKeep policy model
* `probabilityAtLeastOneKeep`    - restricted keep-only model

Two embeddings are given.

The first ("Q layer") models a JavaScript number as an exact rational `ℚ`:
every arithmetic step of the source is mirrored, `Math.floor` becomes the
rational floor, and a `for` loop `for (i = a; i < b; i++)` with an integer
counter becomes a fuel-based structural recursion whose fuel is the exact
number of iterations the JavaScript loop performs (`max 0 ⌈b⌉ - a` for a
finite bound `b`).  Floating-point rounding and the non-finite values are
the only aspects the Q layer abstracts.

The second ("Js layer") additionally models the three non-finite JavaScript
values `NaN`, `Infinity` and `-Infinity`, with the IEEE propagation rules
used by JavaScript arithmetic and by `Math.min` / `Math.max` / `Math.floor`
(the sign of zero is not modelled; none of the analysed code distinguishes
`+0` from `-0`).  The Js layer is used for the claims that explicitly talk
about non-finite input.
-/

/-- Source `clamp(value, min, max) = Math.max(min, Math.min(max, value))`
(`src/unnamed/part_000` line 7, identical copy in `part_001` line 5),
restricted to finite values. -/
def clamp (value lo hi : ℚ) : ℚ := max lo (min hi value)

/-- The loop `for (let i = 1; i <= kEff; i += 1) result *= (n - kEff + i) / i`
of source `combination`.  `base` is the loop-invariant value `n - kEff`,
`i` is the JavaScript counter, `fuel` the number of remaining iterations. -/
def combLoop (base : ℚ) : ℕ → ℕ → ℚ → ℚ
  | 0, _, result => result
  | fuel + 1, i, result =>
      combLoop base fuel (i + 1) (result * ((base + (i : ℚ)) / (i : ℚ)))

/-- Source `combination(n, k)` (`src/unnamed/part_000` lines 12-24).
The JavaScript function first returns 0 when an argument is not finite;
over `ℚ` every value is finite, so that guard is vacuous here (it is
modelled in the Js layer below).  Then both arguments are floored,
`k < 0 || k > n` yields 0, `kEff = min(k, n - k)`, `kEff === 0` yields 1,
and otherwise the running product is computed. -/
def combination (n k : ℚ) : ℚ :=
  let nf : ℤ := ⌊n⌋
  let kf : ℤ := ⌊k⌋
  if kf < 0 ∨ nf < kf then 0
  else
    let kEff : ℤ := min kf (nf - kf)
    if kEff = 0 then 1
    else combLoop ((nf : ℚ) - (kEff : ℚ)) kEff.toNat 1 1

/-- The loop `for (let i = 0; i < draws; i += 1)` of source
`zeroHitHypergeometricRatio`: numerator `nonTargets - i`,
denominator `total - i`, early `return 0` when the numerator is `<= 0`. -/
def zeroHitLoop (nonTargets total : ℚ) : ℕ → ℕ → ℚ → ℚ
  | 0, _, product => product
  | fuel + 1, i, product =>
      let numerator := nonTargets - (i : ℚ)
      let denominator := total - (i : ℚ)
      if numerator ≤ 0 then 0
      else zeroHitLoop nonTargets total fuel (i + 1) (product * (numerator / denominator))

/-- Source `zeroHitHypergeometricRatio(total, targetInDeck, draws)`
(`src/unnamed/part_000` lines 29-44, identical copy in `part_001`
lines 10-25; the name is shortened here).  Guard order is exactly the
source's: `draws <= 0`, `targetInDeck <= 0`, `total <= 0`, `draws > total`,
`nonTargets < 0`, then the running product.  A JavaScript loop
`for (i = 0; i < draws; i++)` with integer `i` performs `max 0 ⌈draws⌉`
iterations, and the `draws ≤ 0` guard has already ensured `draws > 0`
here, so the fuel is `⌈draws⌉.toNat`. -/
def zeroHitHypergeometric (total targetInDeck draws : ℚ) : ℚ :=
  if draws ≤ 0 then 1
  else if targetInDeck ≤ 0 then 1
  else if total ≤ 0 then 1
  else if total < draws then 0
  else
    let nonTargets := total - targetInDeck
    if nonTargets < 0 then 0
    else zeroHitLoop nonTargets total (⌈draws⌉).toNat 0 1

/-- Source `type KeepMode = "keep" | "noKeep"` (`src/unnamed/part_000` line 5). -/
inductive KeepMode where
  | keep
  | noKeep
deriving DecidableEq

/-- Source `probabilityAtLeastOne(keepMode, mulliganCount, targetsInDeck,
drawsFromDeck)` (`src/unnamed/part_000` lines 46-84).  The summation loop
`for (let k = 0; k <= kMax; k += 1) { ...; sum += pl * qLk }` is a pure
accumulation, embedded as a `Finset.range` sum; since the clamped `l` and
`n` are integral and nonnegative, `kMax = min l n` is integral and `≥ 0`,
and the JavaScript loop performs exactly `⌊kMax⌋ + 1` iterations. -/
def probabilityAtLeastOne (keepMode : KeepMode)
    (mulliganCount targetsInDeck drawsFromDeck : ℚ) : ℚ :=
  let n := clamp ((⌊targetsInDeck⌋ : ℚ)) 0 40
  let l := clamp ((⌊mulliganCount⌋ : ℚ)) 0 40
  let m := clamp ((⌊drawsFromDeck⌋ : ℚ)) 0 40
  match keepMode with
  | .keep =>
      let pNoInitial := zeroHitHypergeometric 40 n 4
      let pNoMulligan := zeroHitHypergeometric 36 n l
      let pNoDraws := zeroHitHypergeometric 36 n m
      let pNo := pNoInitial * pNoMulligan * pNoDraws
      clamp (1 - pNo) 0 1
  | .noKeep =>
      let qM := zeroHitHypergeometric 36 n m
      let denomInitial := combination (36 + l) l
      let kMax := min l n
      let sum := ∑ k ∈ Finset.range (⌊kMax⌋.toNat + 1),
        (if denomInitial = 0 then 0
         else combination n (k : ℚ) * combination (36 + l - n) (l - (k : ℚ)) / denomInitial) *
          zeroHitHypergeometric 36 (n - (k : ℚ)) l
      let pNo := qM * sum
      clamp (1 - pNo) 0 1

/-- Source `probabilityAtLeastOneKeep(n, l, m)` (`src/unnamed/part_001`
lines 29-37): the restricted keep-only model, conditioned on the opening
4 cards having zero targets. -/
def probabilityAtLeastOneKeep (n l m : ℚ) : ℚ :=
  let nn := clamp ((⌊n⌋ : ℚ)) 0 40
  let ll := clamp ((⌊l⌋ : ℚ)) 0 4
  let mm := clamp ((⌊m⌋ : ℚ)) 0 40
  let pNoMulligan := zeroHitHypergeometric 36 nn ll
  let pNoDraws := zeroHitHypergeometric 36 nn mm
  let pNo := pNoMulligan * pNoDraws
  clamp (1 - pNo) 0 1

example : combination 5 2 = 10 := by norm_num [combination, combLoop]
example : combination 5 (-1) = 0 := by norm_num [combination]
example : combination 3 4 = 0 := by norm_num [combination]
example : zeroHitHypergeometric 40 4 4 = (36 * 35 * 34 * 33 : ℚ) / (40 * 39 * 38 * 37) := by
  norm_num [zeroHitHypergeometric, zeroHitLoop]
example : zeroHitHypergeometric 5 0 6 = 1 := by norm_num [zeroHitHypergeometric]

/-!
## The zero-hit loop as an explicit product

`zeroHitLoop` is characterized by: it returns 0 as soon as some numerator
`nonTargets - i` is nonpositive, and otherwise multiplies the accumulator
by every factor `(nonTargets - i) / (total - i)`.
-/

theorem zeroHitLoop_eq (a t : ℚ) :
    ∀ (fuel i : ℕ) (p : ℚ),
      zeroHitLoop a t fuel i p =
        if ∃ j ∈ Finset.range fuel, a - ((i + j : ℕ) : ℚ) ≤ 0 then 0
        else p * ∏ j ∈ Finset.range fuel, ((a - ((i + j : ℕ) : ℚ)) / (t - ((i + j : ℕ) : ℚ))) := by
  intro fuel
  induction fuel with
  | zero => simp [zeroHitLoop]
  | succ fuel ih =>
      intro i p
      by_cases ha : a - (i : ℚ) ≤ 0
      · have hex : ∃ j ∈ Finset.range (fuel + 1), a - ((i + j : ℕ) : ℚ) ≤ 0 :=
          ⟨0, Finset.mem_range.2 (Nat.succ_pos _), by simpa using ha⟩
        simp only [zeroHitLoop, if_pos ha, if_pos hex]
      · have hstep : zeroHitLoop a t (fuel + 1) i p =
            zeroHitLoop a t fuel (i + 1) (p * ((a - (i : ℚ)) / (t - (i : ℚ)))) := by
          simp only [zeroHitLoop, if_neg ha]
        rw [hstep, ih]
        have hiff : (∃ j ∈ Finset.range fuel, a - ((i + 1 + j : ℕ) : ℚ) ≤ 0) ↔
            (∃ j ∈ Finset.range (fuel + 1), a - ((i + j : ℕ) : ℚ) ≤ 0) := by
          constructor
          · rintro ⟨j, hj, hle⟩
            exact ⟨j + 1, Finset.mem_range.2 (Nat.succ_lt_succ (Finset.mem_range.1 hj)),
              by push_cast at hle ⊢; linarith⟩
          · rintro ⟨j, hj, hle⟩
            rcases j with _ | j
            · exact absurd (by simpa using hle) ha
            · exact ⟨j, Finset.mem_range.2 (Nat.lt_of_succ_lt_succ (Finset.mem_range.1 hj)),
                by push_cast at hle ⊢; linarith⟩
        rw [if_congr hiff rfl rfl]
        by_cases hex : ∃ j ∈ Finset.range (fuel + 1), a - ((i + j : ℕ) : ℚ) ≤ 0
        · rw [if_pos hex, if_pos hex]
        · rw [if_neg hex, if_neg hex, Finset.prod_range_succ']
          have hc : ∀ j : ℕ, ((i + 1 + j : ℕ) : ℚ) = ((i + (j + 1) : ℕ) : ℚ) := by
            intro j; push_cast; ring
          simp only [hc]
          push_cast
          ring

/-- The fully unfolded cascade for `zeroHitHypergeometricRatio`, with the
running product written as an explicit `Finset.prod` over the loop indices
and the early-return condition as an explicit existential.  This is the
shape described by the specification; `zeroHit_eq_ratioSpec` proves the
source loop computes it. -/
def zeroHitRatioSpec (total targetInDeck draws : ℚ) : ℚ :=
  if draws ≤ 0 then 1
  else if targetInDeck ≤ 0 then 1
  else if total ≤ 0 then 1
  else if total < draws then 0
  else if total - targetInDeck < 0 then 0
  else if ∃ j ∈ Finset.range (⌈draws⌉).toNat, total - targetInDeck - (j : ℚ) ≤ 0 then 0
  else ∏ j ∈ Finset.range (⌈draws⌉).toNat,
    ((total - targetInDeck - (j : ℚ)) / (total - (j : ℚ)))

theorem zeroHit_eq_ratioSpec (total targetInDeck draws : ℚ) :
    zeroHitHypergeometric total targetInDeck draws =
      zeroHitRatioSpec total targetInDeck draws := by
  unfold zeroHitHypergeometric zeroHitRatioSpec
  by_cases h1 : draws ≤ 0
  · simp [h1]
  by_cases h2 : targetInDeck ≤ 0
  · simp [h1, h2]
  by_cases h3 : total ≤ 0
  · simp [h1, h2, h3]
  by_cases h4 : total < draws
  · simp [h1, h2, h3, h4]
  by_cases h5 : total - targetInDeck < 0
  · simp [h1, h2, h3, h4, h5]
  · simp only [if_neg h1, if_neg h2, if_neg h3, if_neg h4, if_neg h5]
    rw [zeroHitLoop_eq]
    simp only [Nat.zero_add, one_mul, Finset.prod_div_distrib]

/-!
## Properties of the zero-hit ratio
-/

theorem zeroHit_of_draws_nonpos {total targetInDeck draws : ℚ} (h : draws ≤ 0) :
    zeroHitHypergeometric total targetInDeck draws = 1 := by
  simp [zeroHitHypergeometric, h]

theorem zeroHit_of_target_nonpos {total targetInDeck draws : ℚ} (h : targetInDeck ≤ 0) :
    zeroHitHypergeometric total targetInDeck draws = 1 := by
  unfold zeroHitHypergeometric
  by_cases h1 : draws ≤ 0 <;> simp [h1, h]

theorem zeroHit_of_total_nonpos {total targetInDeck draws : ℚ} (h : total ≤ 0) :
    zeroHitHypergeometric total targetInDeck draws = 1 := by
  unfold zeroHitHypergeometric
  by_cases h1 : draws ≤ 0
  · simp [h1]
  by_cases h2 : targetInDeck ≤ 0 <;> simp [h1, h2, h]

theorem zeroHit_of_total_lt_draws {total targetInDeck draws : ℚ}
    (hk : 0 < targetInDeck) (ht : 0 < total) (h : total < draws) :
    zeroHitHypergeometric total targetInDeck draws = 0 := by
  have h1 : ¬ draws ≤ 0 := by linarith
  have h2 : ¬ targetInDeck ≤ 0 := by linarith
  have h3 : ¬ total ≤ 0 := by linarith
  simp [zeroHitHypergeometric, h1, h2, h3, h]

theorem zeroHit_main {total targetInDeck draws : ℚ}
    (hd : 0 < draws) (hk : 0 < targetInDeck) (ht : 0 < total)
    (hdt : draws ≤ total) (ha : 0 ≤ total - targetInDeck) :
    zeroHitHypergeometric total targetInDeck draws =
      if ∃ j ∈ Finset.range (⌈draws⌉).toNat, total - targetInDeck - (j : ℚ) ≤ 0 then 0
      else ∏ j ∈ Finset.range (⌈draws⌉).toNat,
        ((total - targetInDeck - (j : ℚ)) / (total - (j : ℚ))) := by
  rw [zeroHit_eq_ratioSpec]
  unfold zeroHitRatioSpec
  have h1 : ¬ draws ≤ 0 := by linarith
  have h2 : ¬ targetInDeck ≤ 0 := by linarith
  have h3 : ¬ total ≤ 0 := by linarith
  have h4 : ¬ total < draws := by linarith
  have h5 : ¬ total - targetInDeck < 0 := by linarith
  simp only [if_neg h1, if_neg h2, if_neg h3, if_neg h4, if_neg h5]

theorem zeroHit_of_nonTargets_neg {total targetInDeck draws : ℚ}
    (hd : 0 < draws) (hdt : draws ≤ total) (ha : total - targetInDeck < 0) :
    zeroHitHypergeometric total targetInDeck draws = 0 := by
  have ht : 0 < total := lt_of_lt_of_le hd hdt
  have hk : 0 < targetInDeck := by linarith
  have h1 : ¬ draws ≤ 0 := by linarith
  have h2 : ¬ targetInDeck ≤ 0 := by linarith
  have h3 : ¬ total ≤ 0 := by linarith
  have h4 : ¬ total < draws := by linarith
  simp [zeroHitHypergeometric, h1, h2, h3, h4, ha]

/-- An index of the running product is strictly below `draws`. -/
theorem mem_range_ceil_lt {draws : ℚ} {j : ℕ}
    (hj : j ∈ Finset.range (⌈draws⌉).toNat) : (j : ℚ) < draws := by
  have h1 : (j : ℤ) < ⌈draws⌉ := Int.lt_toNat.1 (Finset.mem_range.1 hj)
  have h2 : (j : ℤ) + 1 ≤ ⌈draws⌉ := h1
  have h3 : ((j : ℤ) : ℚ) + 1 ≤ ((⌈draws⌉ : ℤ) : ℚ) := by exact_mod_cast h2
  have h4 : ((⌈draws⌉ : ℤ) : ℚ) < draws + 1 := Int.ceil_lt_add_one draws
  push_cast at h3
  linarith

theorem zeroHit_nonneg (total targetInDeck draws : ℚ) :
    0 ≤ zeroHitHypergeometric total targetInDeck draws := by
  rw [zeroHit_eq_ratioSpec]
  unfold zeroHitRatioSpec
  split_ifs with h1 h2 h3 h4 h5 h6
  · norm_num
  · norm_num
  · norm_num
  · norm_num
  · norm_num
  · norm_num
  · refine Finset.prod_nonneg fun j hj => ?_
    have hnum : 0 < total - targetInDeck - (j : ℚ) := by
      by_contra hcon
      exact h6 ⟨j, hj, by linarith⟩
    have hjd : (j : ℚ) < draws := mem_range_ceil_lt hj
    have hden : 0 < total - (j : ℚ) := by linarith
    positivity

theorem zeroHit_le_one (total targetInDeck draws : ℚ) :
    zeroHitHypergeometric total targetInDeck draws ≤ 1 := by
  rw [zeroHit_eq_ratioSpec]
  unfold zeroHitRatioSpec
  split_ifs with h1 h2 h3 h4 h5 h6
  · norm_num
  · norm_num
  · norm_num
  · norm_num
  · norm_num
  · norm_num
  · refine Finset.prod_le_one (fun j hj => ?_) (fun j hj => ?_)
    · have hnum : 0 < total - targetInDeck - (j : ℚ) := by
        by_contra hcon
        exact h6 ⟨j, hj, by linarith⟩
      have hjd : (j : ℚ) < draws := mem_range_ceil_lt hj
      have hden : 0 < total - (j : ℚ) := by linarith
      positivity
    · have hjd : (j : ℚ) < draws := mem_range_ceil_lt hj
      have hden : 0 < total - (j : ℚ) := by linarith
      rw [div_le_one hden]
      linarith

/-- More target cards can only decrease the zero-hit probability. -/
theorem zeroHit_anti_target (total draws : ℚ) {k k' : ℚ} (hkk : k ≤ k') :
    zeroHitHypergeometric total k' draws ≤ zeroHitHypergeometric total k draws := by
  by_cases h1 : draws ≤ 0
  · rw [zeroHit_of_draws_nonpos h1, zeroHit_of_draws_nonpos h1]
  by_cases h2 : k' ≤ 0
  · rw [zeroHit_of_target_nonpos h2, zeroHit_of_target_nonpos (le_trans hkk h2)]
  by_cases h2b : k ≤ 0
  · rw [zeroHit_of_target_nonpos h2b]
    exact zeroHit_le_one _ _ _
  by_cases h3 : total ≤ 0
  · rw [zeroHit_of_total_nonpos h3, zeroHit_of_total_nonpos h3]
  push_neg at h1 h2 h2b h3
  by_cases h4 : total < draws
  · rw [zeroHit_of_total_lt_draws h2 h3 h4, zeroHit_of_total_lt_draws h2b h3 h4]
  push_neg at h4
  by_cases h5 : total - k < 0
  · rw [zeroHit_of_nonTargets_neg h1 h4 h5,
      zeroHit_of_nonTargets_neg h1 h4 (by linarith)]
  push_neg at h5
  by_cases h5b : total - k' < 0
  · rw [zeroHit_of_nonTargets_neg h1 h4 h5b]
    exact zeroHit_nonneg _ _ _
  push_neg at h5b
  by_cases hex : ∃ j ∈ Finset.range (⌈draws⌉).toNat, total - k' - (j : ℚ) ≤ 0
  · rw [zeroHit_main h1 h2 h3 h4 h5b, if_pos hex]
    exact zeroHit_nonneg _ _ _
  · have hex0 : ¬ ∃ j ∈ Finset.range (⌈draws⌉).toNat, total - k - (j : ℚ) ≤ 0 := by
      rintro ⟨j, hj, hle⟩
      exact hex ⟨j, hj, by linarith⟩
    rw [zeroHit_main h1 h2 h3 h4 h5b, if_neg hex,
      zeroHit_main h1 h2b h3 h4 h5, if_neg hex0]
    refine Finset.prod_le_prod (fun j hj => ?_) (fun j hj => ?_)
    · have hnum : 0 < total - k' - (j : ℚ) := by
        by_contra hcon
        exact hex ⟨j, hj, by linarith⟩
      have hden : 0 < total - (j : ℚ) := by
        have := mem_range_ceil_lt hj
        linarith
      positivity
    · have hden : 0 < total - (j : ℚ) := by
        have := mem_range_ceil_lt hj
        linarith
      exact (div_le_div_iff_of_pos_right hden).2 (by linarith)

/-- More draws can only decrease the zero-hit probability. -/
theorem zeroHit_anti_draws (total k : ℚ) {d d' : ℚ} (hdd : d ≤ d') :
    zeroHitHypergeometric total k d' ≤ zeroHitHypergeometric total k d := by
  by_cases h1 : d' ≤ 0
  · rw [zeroHit_of_draws_nonpos h1, zeroHit_of_draws_nonpos (le_trans hdd h1)]
  by_cases h1b : d ≤ 0
  · rw [zeroHit_of_draws_nonpos h1b]
    exact zeroHit_le_one _ _ _
  by_cases h2 : k ≤ 0
  · rw [zeroHit_of_target_nonpos h2, zeroHit_of_target_nonpos h2]
  by_cases h3 : total ≤ 0
  · rw [zeroHit_of_total_nonpos h3, zeroHit_of_total_nonpos h3]
  push_neg at h1 h1b h2 h3
  by_cases h4 : total < d
  · rw [zeroHit_of_total_lt_draws h2 h3 h4,
      zeroHit_of_total_lt_draws h2 h3 (lt_of_lt_of_le h4 hdd)]
  push_neg at h4
  by_cases h4b : total < d'
  · rw [zeroHit_of_total_lt_draws h2 h3 h4b]
    exact zeroHit_nonneg _ _ _
  push_neg at h4b
  by_cases h5 : total - k < 0
  · rw [zeroHit_of_nonTargets_neg h1b h4 h5, zeroHit_of_nonTargets_neg h1 h4b h5]
  push_neg at h5
  have hD : (⌈d⌉).toNat ≤ (⌈d'⌉).toNat := Int.toNat_le_toNat (Int.ceil_le_ceil hdd)
  by_cases hex : ∃ j ∈ Finset.range (⌈d⌉).toNat, total - k - (j : ℚ) ≤ 0
  · obtain ⟨j, hj, hle⟩ := hex
    have hex' : ∃ j ∈ Finset.range (⌈d'⌉).toNat, total - k - (j : ℚ) ≤ 0 :=
      ⟨j, Finset.mem_range.2 (lt_of_lt_of_le (Finset.mem_range.1 hj) hD), hle⟩
    rw [zeroHit_main h1b h2 h3 h4 h5, if_pos ⟨j, hj, hle⟩,
      zeroHit_main h1 h2 h3 h4b h5, if_pos hex']
  by_cases hex' : ∃ j ∈ Finset.range (⌈d'⌉).toNat, total - k - (j : ℚ) ≤ 0
  · rw [zeroHit_main h1 h2 h3 h4b h5, if_pos hex']
    exact zeroHit_nonneg _ _ _
  · rw [zeroHit_main h1b h2 h3 h4 h5, if_neg hex,
      zeroHit_main h1 h2 h3 h4b h5, if_neg hex']
    have hfac : ∀ j ∈ Finset.range (⌈d'⌉).toNat,
        0 ≤ (total - k - (j : ℚ)) / (total - (j : ℚ)) ∧
          (total - k - (j : ℚ)) / (total - (j : ℚ)) ≤ 1 := by
      intro j hj
      have hnum : 0 < total - k - (j : ℚ) := by
        by_contra hcon
        exact hex' ⟨j, hj, by linarith⟩
      have hden : 0 < total - (j : ℚ) := by
        have := mem_range_ceil_lt hj
        linarith
      constructor
      · positivity
      · rw [div_le_one hden]
        linarith
    obtain ⟨e, he⟩ := Nat.exists_eq_add_of_le hD
    rw [he, Finset.prod_range_add]
    have h0 : 0 ≤ ∏ j ∈ Finset.range (⌈d⌉).toNat,
        (total - k - (j : ℚ)) / (total - (j : ℚ)) := by
      refine Finset.prod_nonneg fun j hj => ?_
      exact (hfac j (Finset.mem_range.2
        (lt_of_lt_of_le (Finset.mem_range.1 hj) hD))).1
    have h1le : (∏ x ∈ Finset.range e,
        (total - k - (((⌈d⌉).toNat + x : ℕ) : ℚ)) /
          (total - (((⌈d⌉).toNat + x : ℕ) : ℚ))) ≤ 1 := by
      refine Finset.prod_le_one (fun x hx => ?_) (fun x hx => ?_)
      · refine (hfac _ (Finset.mem_range.2 ?_)).1
        rw [he]
        exact Nat.add_lt_add_left (Finset.mem_range.1 hx) _
      · refine (hfac _ (Finset.mem_range.2 ?_)).2
        rw [he]
        exact Nat.add_lt_add_left (Finset.mem_range.1 hx) _
    exact mul_le_of_le_one_right h0 h1le

/-- On integer inputs in the hypergeometrically meaningful range the ratio
is strictly positive. -/
theorem zeroHit_pos_int {t k d : ℤ} (hk : 1 ≤ k) (hd : 1 ≤ d) (hdt : d ≤ t - k) :
    0 < zeroHitHypergeometric (t : ℚ) (k : ℚ) (d : ℚ) := by
  have hkq : (0 : ℚ) < (k : ℚ) := by exact_mod_cast hk
  have hdq : (0 : ℚ) < (d : ℚ) := by exact_mod_cast hd
  have hdtq : (d : ℚ) ≤ (t : ℚ) - (k : ℚ) := by
    have : (d : ℚ) ≤ ((t - k : ℤ) : ℚ) := by exact_mod_cast hdt
    push_cast at this
    linarith
  have htq : (0 : ℚ) < (t : ℚ) := by linarith
  have hdt2 : (d : ℚ) ≤ (t : ℚ) := by linarith
  have haq : (0 : ℚ) ≤ (t : ℚ) - (k : ℚ) := by linarith
  rw [zeroHit_main hdq hkq htq hdt2 haq]
  have hceil : (⌈((d : ℤ) : ℚ)⌉).toNat = d.toNat := by
    rw [Int.ceil_intCast]
  rw [hceil]
  have hno : ¬ ∃ j ∈ Finset.range d.toNat, (t : ℚ) - (k : ℚ) - (j : ℚ) ≤ 0 := by
    rintro ⟨j, hj, hle⟩
    have hjd : (j : ℤ) < d := Int.lt_toNat.1 (Finset.mem_range.1 hj)
    have hjq : (j : ℚ) + 1 ≤ (d : ℚ) := by exact_mod_cast Int.add_one_le_iff.2 hjd
    linarith
  rw [if_neg hno]
  refine Finset.prod_pos fun j hj => ?_
  have hjd : (j : ℤ) < d := Int.lt_toNat.1 (Finset.mem_range.1 hj)
  have hjq : (j : ℚ) + 1 ≤ (d : ℚ) := by exact_mod_cast Int.add_one_le_iff.2 hjd
  have hnum : 0 < (t : ℚ) - (k : ℚ) - (j : ℚ) := by linarith
  have hden : 0 < (t : ℚ) - (j : ℚ) := by linarith
  positivity

/-!
## The zero-hit ratio as a quotient of binomial coefficients
-/

theorem prod_cast_sub_eq_descFactorial :
    ∀ (d a : ℕ), d ≤ a →
      ∏ j ∈ Finset.range d, ((a : ℚ) - (j : ℚ)) = (a.descFactorial d : ℚ) := by
  intro d
  induction d with
  | zero => simp
  | succ d ih =>
      intro a ha
      rw [Finset.prod_range_succ, ih a (Nat.le_of_succ_le ha), Nat.descFactorial_succ]
      have hda : d ≤ a := Nat.le_of_succ_le ha
      push_cast [Nat.cast_sub hda]
      ring

/-- For natural numbers `k ≤ t` and `d ≤ t` the source's running product
equals `C(t - k, d) / C(t, d)` (including the degenerate case
`t - k < d`, where both sides are 0). -/
theorem zeroHit_choose {t k d : ℕ} (hkt : k ≤ t) (hdt : d ≤ t) :
    zeroHitHypergeometric (t : ℚ) (k : ℚ) (d : ℚ) =
      ((t - k).choose d : ℚ) / (t.choose d : ℚ) := by
  rcases Nat.eq_zero_or_pos d with hd0 | hdpos
  · subst hd0
    rw [zeroHit_of_draws_nonpos (by norm_num)]
    simp
  rcases Nat.eq_zero_or_pos k with hk0 | hkpos
  · subst hk0
    have hc : ((t.choose d : ℕ) : ℚ) ≠ 0 := by exact_mod_cast (Nat.choose_pos hdt).ne'
    rw [zeroHit_of_target_nonpos (by norm_num), Nat.sub_zero, div_self hc]
  have hdq : (0 : ℚ) < (d : ℚ) := by exact_mod_cast hdpos
  have hkq : (0 : ℚ) < (k : ℚ) := by exact_mod_cast hkpos
  have htq : (0 : ℚ) < (t : ℚ) := by
    exact_mod_cast lt_of_lt_of_le hdpos hdt
  have hdtq : (d : ℚ) ≤ (t : ℚ) := by exact_mod_cast hdt
  have hktq : (k : ℚ) ≤ (t : ℚ) := by exact_mod_cast hkt
  have haq : (0 : ℚ) ≤ (t : ℚ) - (k : ℚ) := by linarith
  rw [zeroHit_main hdq hkq htq hdtq haq]
  have hceil : (⌈((d : ℕ) : ℚ)⌉).toNat = d := by
    rw [Int.ceil_natCast, Int.toNat_natCast]
  rw [hceil]
  have hcast : ((t - k : ℕ) : ℚ) = (t : ℚ) - (k : ℚ) := by
    push_cast [Nat.cast_sub hkt]
    ring
  by_cases hlt : t - k < d
  · have hex : ∃ j ∈ Finset.range d, (t : ℚ) - (k : ℚ) - (j : ℚ) ≤ 0 :=
      ⟨t - k, Finset.mem_range.2 hlt, by rw [← hcast]; simp⟩
    rw [if_pos hex, Nat.choose_eq_zero_of_lt hlt]
    simp
  · push_neg at hlt
    have hno : ¬ ∃ j ∈ Finset.range d, (t : ℚ) - (k : ℚ) - (j : ℚ) ≤ 0 := by
      rintro ⟨j, hj, hle⟩
      have hjd : j < d := Finset.mem_range.1 hj
      have : (j : ℚ) + 1 ≤ ((t - k : ℕ) : ℚ) := by
        exact_mod_cast Nat.succ_le_of_lt (lt_of_lt_of_le hjd hlt)
      rw [hcast] at this
      linarith
    rw [if_neg hno]
    have hsplit : ∏ j ∈ Finset.range d, (((t : ℚ) - (k : ℚ) - (j : ℚ)) / ((t : ℚ) - (j : ℚ))) =
        (∏ j ∈ Finset.range d, ((t : ℚ) - (k : ℚ) - (j : ℚ))) /
          ∏ j ∈ Finset.range d, ((t : ℚ) - (j : ℚ)) := by
      rw [Finset.prod_div_distrib]
    have hnum : ∏ j ∈ Finset.range d, ((t : ℚ) - (k : ℚ) - (j : ℚ)) =
        ((t - k).descFactorial d : ℚ) := by
      rw [← prod_cast_sub_eq_descFactorial d (t - k) hlt]
      refine Finset.prod_congr rfl fun j hj => ?_
      rw [hcast]
    have hden : ∏ j ∈ Finset.range d, ((t : ℚ) - (j : ℚ)) = (t.descFactorial d : ℚ) :=
      prod_cast_sub_eq_descFactorial d t hdt
    rw [hsplit, hnum, hden, Nat.descFactorial_eq_factorial_mul_choose,
      Nat.descFactorial_eq_factorial_mul_choose]
    push_cast
    rw [mul_div_mul_left]
    exact_mod_cast d.factorial_ne_zero

/-!
## The combination function as a binomial coefficient
-/

theorem combLoop_eq (base : ℚ) :
    ∀ (fuel i : ℕ) (acc : ℚ),
      combLoop base fuel i acc =
        acc * ∏ j ∈ Finset.range fuel, ((base + ((i + j : ℕ) : ℚ)) / ((i + j : ℕ) : ℚ)) := by
  intro fuel
  induction fuel with
  | zero => simp [combLoop]
  | succ fuel ih =>
      intro i acc
      rw [combLoop, ih, Finset.prod_range_succ']
      have hc : ∀ j : ℕ, ((i + 1 + j : ℕ) : ℚ) = ((i + (j + 1) : ℕ) : ℚ) := by
        intro j; push_cast; ring
      simp only [hc]
      push_cast
      ring

/-- `∏_{j = 0}^{e-1} (b + (j+1)) / (j+1) = C(b + e, e)` over `ℚ`. -/
theorem prod_ratio_choose (b : ℕ) :
    ∀ e : ℕ, ∏ j ∈ Finset.range e, (((b : ℚ) + ((1 + j : ℕ) : ℚ)) / ((1 + j : ℕ) : ℚ)) =
      ((b + e).choose e : ℚ) := by
  intro e
  induction e with
  | zero => simp
  | succ e ih =>
      rw [Finset.prod_range_succ, ih]
      have hidx : b + (e + 1) = b + e + 1 := by omega
      rw [hidx]
      have hmulq : ((b : ℚ) + (e : ℚ) + 1) * ((b + e).choose e : ℚ) =
          ((b + e + 1).choose (e + 1) : ℚ) * ((e : ℚ) + 1) := by
        exact_mod_cast Nat.succ_mul_choose_eq (b + e) e
      have hne : ((1 + e : ℕ) : ℚ) ≠ 0 := by positivity
      field_simp
      linear_combination hmulq

/-- Characterization of the source `combination` on integer inputs:
it is the binomial coefficient on the valid range and 0 otherwise. -/
theorem combination_intCast (a b : ℤ) :
    combination (a : ℚ) (b : ℚ) =
      if 0 ≤ b ∧ b ≤ a then ((a.toNat.choose b.toNat : ℕ) : ℚ) else 0 := by
  unfold combination
  rw [Int.floor_intCast, Int.floor_intCast]
  by_cases hvalid : 0 ≤ b ∧ b ≤ a
  · obtain ⟨hb0, hba⟩ := hvalid
    have hva : 0 ≤ b ∧ b ≤ a := ⟨hb0, hba⟩
    have hguard : ¬ (b < 0 ∨ a < b) := by omega
    rw [if_neg hguard, if_pos hva]
    set A := a.toNat with hA
    set B := b.toNat with hB
    have haA : a = (A : ℤ) := by omega
    have hbB : b = (B : ℤ) := by omega
    have hBA : B ≤ A := by omega
    have hkEff : min b (a - b) = ((min B (A - B) : ℕ) : ℤ) := by
      omega
    rw [hkEff]
    set E := min B (A - B) with hE
    by_cases hE0 : ((E : ℕ) : ℤ) = 0
    · have hE0n : E = 0 := by omega
      rw [if_pos hE0]
      have : B = 0 ∨ A = B := by omega
      rcases this with h | h
      · rw [h]; simp
      · rw [← h]
        rw [Nat.choose_self]
        norm_num
    · rw [if_neg hE0]
      have hEn : 0 < E := by omega
      have hEA : E ≤ A := by omega
      rw [combLoop_eq]
      have htoNat : ((E : ℕ) : ℤ).toNat = E := by omega
      rw [htoNat]
      have hbase : ((a : ℤ) : ℚ) - (((E : ℕ) : ℤ) : ℚ) = ((A - E : ℕ) : ℚ) := by
        push_cast [haA, Nat.cast_sub hEA]
        ring
      rw [hbase]
      have hprod := prod_ratio_choose (A - E) E
      rw [hprod]
      have hAE : A - E + E = A := Nat.sub_add_cancel hEA
      rw [hAE, one_mul]
      have hfinal : A.choose E = A.choose B := by
        rcases Nat.le_total B (A - B) with hmin | hmin
        · rw [hE, min_eq_left hmin]
        · rw [hE, min_eq_right hmin]
          exact Nat.choose_symm hBA
      rw [hfinal]
  · rw [if_neg hvalid]
    have hguard : b < 0 ∨ a < b := by omega
    rw [if_pos hguard]

theorem combination_nonneg (x y : ℚ) : 0 ≤ combination x y := by
  unfold combination
  by_cases hguard : ⌊y⌋ < 0 ∨ ⌊x⌋ < ⌊y⌋
  · rw [if_pos hguard]
  rw [if_neg hguard]
  push_neg at hguard
  obtain ⟨hy0, hyx⟩ := hguard
  by_cases hE : min ⌊y⌋ (⌊x⌋ - ⌊y⌋) = 0
  · rw [if_pos hE]
    norm_num
  · rw [if_neg hE, combLoop_eq, one_mul]
    refine Finset.prod_nonneg fun j hj => ?_
    have hbase : (0 : ℚ) ≤ (⌊x⌋ : ℚ) - ((min ⌊y⌋ (⌊x⌋ - ⌊y⌋) : ℤ) : ℚ) := by
      have h1 : min ⌊y⌋ (⌊x⌋ - ⌊y⌋) ≤ ⌊x⌋ := by omega
      have h2 : ((min ⌊y⌋ (⌊x⌋ - ⌊y⌋) : ℤ) : ℚ) ≤ ((⌊x⌋ : ℤ) : ℚ) := by exact_mod_cast h1
      linarith
    have hstep : (0 : ℚ) < ((1 + j : ℕ) : ℚ) := by positivity
    apply div_nonneg _ (le_of_lt hstep)
    linarith

/-!
## Clamp lemmas
-/

theorem clamp_nonneg (value hi : ℚ) : 0 ≤ clamp value 0 hi := le_max_left 0 _

theorem clamp_le_hi {value hi : ℚ} (h : 0 ≤ hi) : clamp value 0 hi ≤ hi :=
  max_le h (min_le_left hi value)

theorem clamp_mono_value (lo hi : ℚ) {v v' : ℚ} (h : v ≤ v') :
    clamp v lo hi ≤ clamp v' lo hi :=
  max_le_max (le_refl lo) (min_le_min (le_refl hi) h)

theorem clampFloor_mono (hi : ℚ) {x x' : ℚ} (h : x ≤ x') :
    clamp ((⌊x⌋ : ℚ)) 0 hi ≤ clamp ((⌊x'⌋ : ℚ)) 0 hi := by
  refine clamp_mono_value 0 hi ?_
  exact_mod_cast Int.floor_le_floor h

/-- `clamp ∘ floor` with integer bounds produces an integer value. -/
theorem clampFloor_intCast (x : ℚ) (hi : ℤ) :
    clamp ((⌊x⌋ : ℚ)) 0 ((hi : ℤ) : ℚ) = ((max 0 (min hi ⌊x⌋) : ℤ) : ℚ) := by
  unfold clamp
  push_cast
  rfl

/-!
## Monotonicity of the keep-policy model and of the restricted model

These reduce to anti-monotonicity and boundedness of the zero-hit ratio.
-/

theorem keep_core_mono {n n' l l' m m' : ℚ} (hn : n ≤ n') (hl : l ≤ l') (hm : m ≤ m') :
    clamp (1 - zeroHitHypergeometric 40 n' 4 * zeroHitHypergeometric 36 n' l' *
      zeroHitHypergeometric 36 n' m') 0 1 ≥
    clamp (1 - zeroHitHypergeometric 40 n 4 * zeroHitHypergeometric 36 n l *
      zeroHitHypergeometric 36 n m) 0 1 := by
  refine clamp_mono_value 0 1 ?_
  have h1 : zeroHitHypergeometric 40 n' 4 ≤ zeroHitHypergeometric 40 n 4 :=
    zeroHit_anti_target 40 4 hn
  have h2 : zeroHitHypergeometric 36 n' l' ≤ zeroHitHypergeometric 36 n l :=
    le_trans (zeroHit_anti_draws 36 n' hl) (zeroHit_anti_target 36 l hn)
  have h3 : zeroHitHypergeometric 36 n' m' ≤ zeroHitHypergeometric 36 n m :=
    le_trans (zeroHit_anti_draws 36 n' hm) (zeroHit_anti_target 36 m hn)
  have hprod : zeroHitHypergeometric 40 n' 4 * zeroHitHypergeometric 36 n' l' *
      zeroHitHypergeometric 36 n' m' ≤
      zeroHitHypergeometric 40 n 4 * zeroHitHypergeometric 36 n l *
        zeroHitHypergeometric 36 n m := by
    have ha := zeroHit_nonneg 40 n' 4
    have hb := zeroHit_nonneg 36 n' l'
    have hc := zeroHit_nonneg 36 n' m'
    have hd := zeroHit_nonneg 40 n 4
    have he := zeroHit_nonneg 36 n l
    refine mul_le_mul (mul_le_mul h1 h2 hb hd) h3 hc ?_
    exact mul_nonneg hd he
  linarith

theorem keepR_core_mono {n n' l l' m m' : ℚ} (hn : n ≤ n') (hl : l ≤ l') (hm : m ≤ m') :
    clamp (1 - zeroHitHypergeometric 36 n' l' * zeroHitHypergeometric 36 n' m') 0 1 ≥
    clamp (1 - zeroHitHypergeometric 36 n l * zeroHitHypergeometric 36 n m) 0 1 := by
  refine clamp_mono_value 0 1 ?_
  have h2 : zeroHitHypergeometric 36 n' l' ≤ zeroHitHypergeometric 36 n l :=
    le_trans (zeroHit_anti_draws 36 n' hl) (zeroHit_anti_target 36 l hn)
  have h3 : zeroHitHypergeometric 36 n' m' ≤ zeroHitHypergeometric 36 n m :=
    le_trans (zeroHit_anti_draws 36 n' hm) (zeroHit_anti_target 36 m hn)
  have hb := zeroHit_nonneg 36 n' l'
  have hc := zeroHit_nonneg 36 n' m'
  have he := zeroHit_nonneg 36 n l
  have hprod : zeroHitHypergeometric 36 n' l' * zeroHitHypergeometric 36 n' m' ≤
      zeroHitHypergeometric 36 n l * zeroHitHypergeometric 36 n m :=
    mul_le_mul h2 h3 hc he
  linarith

/-!
## Unfolded shapes of the two model functions
-/

theorem probKeep_def (a b c : ℚ) :
    probabilityAtLeastOne .keep a b c =
      clamp (1 - zeroHitHypergeometric 40 (clamp ((⌊b⌋ : ℚ)) 0 40) 4 *
        zeroHitHypergeometric 36 (clamp ((⌊b⌋ : ℚ)) 0 40) (clamp ((⌊a⌋ : ℚ)) 0 40) *
        zeroHitHypergeometric 36 (clamp ((⌊b⌋ : ℚ)) 0 40) (clamp ((⌊c⌋ : ℚ)) 0 40)) 0 1 := rfl

theorem probNoKeep_def (a b c : ℚ) :
    probabilityAtLeastOne .noKeep a b c =
      clamp (1 - zeroHitHypergeometric 36 (clamp ((⌊b⌋ : ℚ)) 0 40) (clamp ((⌊c⌋ : ℚ)) 0 40) *
        ∑ k ∈ Finset.range (⌊min (clamp ((⌊a⌋ : ℚ)) 0 40) (clamp ((⌊b⌋ : ℚ)) 0 40)⌋.toNat + 1),
          (if combination (36 + clamp ((⌊a⌋ : ℚ)) 0 40) (clamp ((⌊a⌋ : ℚ)) 0 40) = 0 then 0
           else combination (clamp ((⌊b⌋ : ℚ)) 0 40) (k : ℚ) *
             combination (36 + clamp ((⌊a⌋ : ℚ)) 0 40 - clamp ((⌊b⌋ : ℚ)) 0 40)
               (clamp ((⌊a⌋ : ℚ)) 0 40 - (k : ℚ)) /
             combination (36 + clamp ((⌊a⌋ : ℚ)) 0 40) (clamp ((⌊a⌋ : ℚ)) 0 40)) *
          zeroHitHypergeometric 36 (clamp ((⌊b⌋ : ℚ)) 0 40 - (k : ℚ))
            (clamp ((⌊a⌋ : ℚ)) 0 40)) 0 1 := rfl

theorem probKeepR_def (n l m : ℚ) :
    probabilityAtLeastOneKeep n l m =
      clamp (1 - zeroHitHypergeometric 36 (clamp ((⌊n⌋ : ℚ)) 0 40) (clamp ((⌊l⌋ : ℚ)) 0 4) *
        zeroHitHypergeometric 36 (clamp ((⌊n⌋ : ℚ)) 0 40) (clamp ((⌊m⌋ : ℚ)) 0 40)) 0 1 := rfl

/-- Every output of the general model is in `[0,1]`. -/
theorem probabilityAtLeastOne_mem (keepMode : KeepMode) (a b c : ℚ) :
    0 ≤ probabilityAtLeastOne keepMode a b c ∧ probabilityAtLeastOne keepMode a b c ≤ 1 := by
  cases keepMode
  · rw [probKeep_def]
    exact ⟨clamp_nonneg _ _, clamp_le_hi (by norm_num)⟩
  · rw [probNoKeep_def]
    exact ⟨clamp_nonneg _ _, clamp_le_hi (by norm_num)⟩

/-- Every output of the restricted model is in `[0,1]`. -/
theorem probabilityAtLeastOneKeep_mem (n l m : ℚ) :
    0 ≤ probabilityAtLeastOneKeep n l m ∧ probabilityAtLeastOneKeep n l m ≤ 1 := by
  rw [probKeepR_def]
  exact ⟨clamp_nonneg _ _, clamp_le_hi (by norm_num)⟩

/-!
## Monotonicity of the model functions (general parts)
-/

/-- The keep-policy model is non-decreasing in all three raw inputs. -/
theorem probKeep_mono {a a' b b' c c' : ℚ} (ha : a ≤ a') (hb : b ≤ b') (hc : c ≤ c') :
    probabilityAtLeastOne .keep a b c ≤ probabilityAtLeastOne .keep a' b' c' := by
  rw [probKeep_def, probKeep_def]
  exact keep_core_mono (clampFloor_mono 40 hb) (clampFloor_mono 40 ha) (clampFloor_mono 40 hc)

/-- The restricted keep-only model is non-decreasing in all three raw inputs. -/
theorem probKeepR_mono {n n' l l' m m' : ℚ} (hn : n ≤ n') (hl : l ≤ l') (hm : m ≤ m') :
    probabilityAtLeastOneKeep n l m ≤ probabilityAtLeastOneKeep n' l' m' := by
  rw [probKeepR_def, probKeepR_def]
  exact keepR_core_mono (clampFloor_mono 40 hn) (clampFloor_mono 4 hl) (clampFloor_mono 40 hm)

/-- A summand of the no-keep summation is nonnegative. -/
theorem noKeep_term_nonneg (l n : ℚ) (k : ℕ) :
    0 ≤ (if combination (36 + l) l = 0 then 0
      else combination n (k : ℚ) * combination (36 + l - n) (l - (k : ℚ)) /
        combination (36 + l) l) *
      zeroHitHypergeometric 36 (n - (k : ℚ)) l := by
  refine mul_nonneg ?_ (zeroHit_nonneg _ _ _)
  split_ifs
  · exact le_refl 0
  · exact div_nonneg (mul_nonneg (combination_nonneg _ _) (combination_nonneg _ _))
      (combination_nonneg _ _)

/-- The no-keep model is non-decreasing in the raw later-draw count. -/
theorem probNoKeep_mono_m (a b : ℚ) {c c' : ℚ} (hc : c ≤ c') :
    probabilityAtLeastOne .noKeep a b c ≤ probabilityAtLeastOne .noKeep a b c' := by
  rw [probNoKeep_def, probNoKeep_def]
  refine clamp_mono_value 0 1 ?_
  have hS : 0 ≤ ∑ k ∈ Finset.range
      (⌊min (clamp ((⌊a⌋ : ℚ)) 0 40) (clamp ((⌊b⌋ : ℚ)) 0 40)⌋.toNat + 1),
      (if combination (36 + clamp ((⌊a⌋ : ℚ)) 0 40) (clamp ((⌊a⌋ : ℚ)) 0 40) = 0 then 0
       else combination (clamp ((⌊b⌋ : ℚ)) 0 40) (k : ℚ) *
         combination (36 + clamp ((⌊a⌋ : ℚ)) 0 40 - clamp ((⌊b⌋ : ℚ)) 0 40)
           (clamp ((⌊a⌋ : ℚ)) 0 40 - (k : ℚ)) /
         combination (36 + clamp ((⌊a⌋ : ℚ)) 0 40) (clamp ((⌊a⌋ : ℚ)) 0 40)) *
      zeroHitHypergeometric 36 (clamp ((⌊b⌋ : ℚ)) 0 40 - (k : ℚ))
        (clamp ((⌊a⌋ : ℚ)) 0 40) :=
    Finset.sum_nonneg fun k _ => noKeep_term_nonneg _ _ k
  have hq : zeroHitHypergeometric 36 (clamp ((⌊b⌋ : ℚ)) 0 40) (clamp ((⌊c'⌋ : ℚ)) 0 40) ≤
      zeroHitHypergeometric 36 (clamp ((⌊b⌋ : ℚ)) 0 40) (clamp ((⌊c⌋ : ℚ)) 0 40) :=
    zeroHit_anti_draws 36 _ (clampFloor_mono 40 hc)
  nlinarith [hS, hq]

/-!
## Combinatorial identities for the no-keep summation
-/

/-- Subset-exchange identity:
`C(s,t) * C(s-t,u) = C(s,u) * C(s-u,t)` for all naturals. -/
theorem choose_sub_exchange (s t u : ℕ) :
    s.choose t * (s - t).choose u = s.choose u * (s - u).choose t := by
  by_cases h : t + u ≤ s
  · have ht : t ≤ s := le_trans (Nat.le_add_right t u) h
    have hu : u ≤ s := le_trans (Nat.le_add_left u t) h
    have h1 : s.choose (t + u) * (t + u).choose t = s.choose t * (s - t).choose u := by
      have := Nat.choose_mul h (Nat.le_add_right t u)
      simpa [Nat.add_sub_cancel_left] using this
    have h2 : s.choose (t + u) * (t + u).choose u = s.choose u * (s - u).choose t := by
      have := Nat.choose_mul h (Nat.le_add_left u t)
      simpa [Nat.add_sub_cancel] using this
    have hsymm : (t + u).choose t = (t + u).choose u := by
      have := Nat.choose_symm (Nat.le_add_right t u)
      simpa [Nat.add_sub_cancel_left] using this.symm
    rw [← h1, hsymm, h2]
  · push_neg at h
    have hz1 : s.choose t * (s - t).choose u = 0 := by
      by_cases ht : t ≤ s
      · have : s - t < u := by omega
        rw [Nat.choose_eq_zero_of_lt this, Nat.mul_zero]
      · rw [Nat.choose_eq_zero_of_lt (by omega), Nat.zero_mul]
    have hz2 : s.choose u * (s - u).choose t = 0 := by
      by_cases hu : u ≤ s
      · have : s - u < t := by omega
        rw [Nat.choose_eq_zero_of_lt this, Nat.mul_zero]
      · rw [Nat.choose_eq_zero_of_lt (by omega), Nat.zero_mul]
    rw [hz1, hz2]

/-- Vandermonde's identity in `Finset.range` form. -/
theorem vandermonde_range (a c l : ℕ) :
    ∑ k ∈ Finset.range (l + 1), a.choose k * c.choose (l - k) = (a + c).choose l := by
  rw [Nat.add_choose_eq, Finset.Nat.sum_antidiagonal_eq_sum_range_succ_mk]

/-- The three-factor sum collapsing behind the no-keep model, for `l ≤ b`:
`∑ k C(a,k) C(b,l-k) C(b-(l-k),l) = C(b,l) * C(a+(b-l), l)`. -/
theorem noKeep_choose_identity (a b l : ℕ) :
    ∑ k ∈ Finset.range (l + 1),
        a.choose k * b.choose (l - k) * (b - (l - k)).choose l =
      b.choose l * (a + (b - l)).choose l := by
  have hterm : ∀ k, a.choose k * b.choose (l - k) * (b - (l - k)).choose l =
      b.choose l * (a.choose k * (b - l).choose (l - k)) := by
    intro k
    have := choose_sub_exchange b (l - k) l
    calc a.choose k * b.choose (l - k) * (b - (l - k)).choose l
        = a.choose k * (b.choose (l - k) * (b - (l - k)).choose l) := by ring
      _ = a.choose k * (b.choose l * (b - l).choose (l - k)) := by rw [this]
      _ = b.choose l * (a.choose k * (b - l).choose (l - k)) := by ring
  calc ∑ k ∈ Finset.range (l + 1),
          a.choose k * b.choose (l - k) * (b - (l - k)).choose l
      = ∑ k ∈ Finset.range (l + 1),
          b.choose l * (a.choose k * (b - l).choose (l - k)) :=
        Finset.sum_congr rfl fun k _ => hterm k
    _ = b.choose l * ∑ k ∈ Finset.range (l + 1),
          a.choose k * (b - l).choose (l - k) := by rw [Finset.mul_sum]
    _ = b.choose l * (a + (b - l)).choose l := by rw [vandermonde_range]

/-- On casts of naturals, `combination` is exactly the binomial coefficient
(with the `C(a,b) = 0` convention for `b > a`). -/
theorem combination_natCast (a b : ℕ) :
    combination ((a : ℕ) : ℚ) ((b : ℕ) : ℚ) = (a.choose b : ℚ) := by
  have hcast : ∀ m : ℕ, ((m : ℕ) : ℚ) = (((m : ℕ) : ℤ) : ℚ) := by
    intro m
    push_cast
    ring
  rw [hcast a, hcast b, combination_intCast]
  by_cases hba : b ≤ a
  · rw [if_pos ⟨Int.natCast_nonneg b, by exact_mod_cast hba⟩]
    rw [Int.toNat_natCast, Int.toNat_natCast]
  · rw [if_neg (by push_neg; intro _; exact_mod_cast Nat.lt_of_not_le hba)]
    rw [Nat.choose_eq_zero_of_lt (Nat.lt_of_not_le hba)]
    norm_num

/-!
## The no-keep summation over integer parameters
-/

/-- The integer value produced by `clamp(Math.floor(x), 0, hi)` for `hi ≥ 0`,
as a natural number. -/
def nclamp (x : ℚ) (hi : ℤ) : ℕ := (max 0 (min hi ⌊x⌋)).toNat

theorem nclamp_mono (hi : ℤ) {x x' : ℚ} (h : x ≤ x') : nclamp x hi ≤ nclamp x' hi := by
  unfold nclamp
  have hf : ⌊x⌋ ≤ ⌊x'⌋ := Int.floor_le_floor h
  omega

theorem nclamp_le (x : ℚ) {hi : ℤ} (h : 0 ≤ hi) : (nclamp x hi : ℤ) ≤ hi := by
  unfold nclamp
  omega

theorem clampFloor40_natCast (x : ℚ) :
    clamp ((⌊x⌋ : ℚ)) 0 40 = ((nclamp x 40 : ℕ) : ℚ) := by
  have h0 : (0 : ℤ) ≤ max 0 (min 40 ⌊x⌋) := le_max_left _ _
  have h1 : ((nclamp x 40 : ℕ) : ℤ) = max 0 (min 40 ⌊x⌋) := Int.toNat_of_nonneg h0
  have h2 : ((nclamp x 40 : ℕ) : ℚ) = ((max 0 (min 40 ⌊x⌋) : ℤ) : ℚ) := by
    exact_mod_cast congrArg (fun z : ℤ => (z : ℚ)) h1
  rw [h2]
  unfold clamp
  push_cast
  norm_num

theorem clampFloor4_natCast (x : ℚ) :
    clamp ((⌊x⌋ : ℚ)) 0 4 = ((nclamp x 4 : ℕ) : ℚ) := by
  have h0 : (0 : ℤ) ≤ max 0 (min 4 ⌊x⌋) := le_max_left _ _
  have h1 : ((nclamp x 4 : ℕ) : ℤ) = max 0 (min 4 ⌊x⌋) := Int.toNat_of_nonneg h0
  have h2 : ((nclamp x 4 : ℕ) : ℚ) = ((max 0 (min 4 ⌊x⌋) : ℤ) : ℚ) := by
    exact_mod_cast congrArg (fun z : ℤ => (z : ℚ)) h1
  rw [h2]
  unfold clamp
  push_cast
  norm_num

/-- The no-keep summation `Σ_k P_l(k) * Q_l(k)` of the source, as a function
of the already clamped integer parameters `l` and `n`. -/
def noKeepSumN (l n : ℕ) : ℚ :=
  ∑ k ∈ Finset.range (min l n + 1),
    (if combination (36 + (l : ℚ)) (l : ℚ) = 0 then 0
     else combination (n : ℚ) (k : ℚ) *
       combination (36 + (l : ℚ) - (n : ℚ)) ((l : ℚ) - (k : ℚ)) /
       combination (36 + (l : ℚ)) (l : ℚ)) *
    zeroHitHypergeometric 36 ((n : ℚ) - (k : ℚ)) (l : ℚ)

theorem probNoKeep_eq_sumN (a b c : ℚ) :
    probabilityAtLeastOne .noKeep a b c =
      clamp (1 - zeroHitHypergeometric 36 ((nclamp b 40 : ℕ) : ℚ) ((nclamp c 40 : ℕ) : ℚ) *
        noKeepSumN (nclamp a 40) (nclamp b 40)) 0 1 := by
  rw [probNoKeep_def, clampFloor40_natCast a, clampFloor40_natCast b, clampFloor40_natCast c]
  unfold noKeepSumN
  have hidx : ⌊min ((nclamp a 40 : ℕ) : ℚ) ((nclamp b 40 : ℕ) : ℚ)⌋.toNat =
      min (nclamp a 40) (nclamp b 40) := by
    rw [← Nat.cast_min, Int.floor_natCast, Int.toNat_natCast]
  rw [hidx]

theorem noKeepSumN_nonneg (l n : ℕ) : 0 ≤ noKeepSumN l n :=
  Finset.sum_nonneg fun k _ => noKeep_term_nonneg (l : ℚ) (n : ℚ) k

theorem denom36l_eq (l : ℕ) :
    combination (36 + (l : ℚ)) (l : ℚ) = ((36 + l).choose l : ℚ) := by
  have h : (36 : ℚ) + (l : ℚ) = ((36 + l : ℕ) : ℚ) := by push_cast; ring
  rw [h, combination_natCast]

theorem denom36l_pos (l : ℕ) : 0 < combination (36 + (l : ℚ)) (l : ℚ) := by
  rw [denom36l_eq]
  exact_mod_cast Nat.choose_pos (Nat.le_add_left l 36)

/-- Region `l ≤ 36`, `n ≤ 36`: the no-keep summation has the closed form
`C(36+l-n, l) / C(36+l, l)` - the plain probability that the `l` redrawn
cards of a `36+l`-card deck containing `n` targets all miss. -/
theorem sumN_R1 {l n : ℕ} (hl : l ≤ 36) (hn : n ≤ 36) :
    noKeepSumN l n = ((36 + l - n).choose l : ℚ) / ((36 + l).choose l : ℚ) := by
  unfold noKeepSumN
  have hdne : combination (36 + (l : ℚ)) (l : ℚ) ≠ 0 := ne_of_gt (denom36l_pos l)
  have h36lpos : (0 : ℚ) < ((36 + l).choose l : ℚ) := by
    exact_mod_cast Nat.choose_pos (Nat.le_add_left l 36)
  have h36pos : (0 : ℚ) < ((36).choose l : ℚ) := by
    exact_mod_cast Nat.choose_pos hl
  have hterm : ∀ k ∈ Finset.range (min l n + 1),
      (if combination (36 + (l : ℚ)) (l : ℚ) = 0 then 0
       else combination (n : ℚ) (k : ℚ) *
         combination (36 + (l : ℚ) - (n : ℚ)) ((l : ℚ) - (k : ℚ)) /
         combination (36 + (l : ℚ)) (l : ℚ)) *
      zeroHitHypergeometric 36 ((n : ℚ) - (k : ℚ)) (l : ℚ) =
      ((n.choose k * (36 + l - n).choose (l - k) * (36 - (n - k)).choose l : ℕ) : ℚ) /
        (((36 + l).choose l : ℚ) * ((36).choose l : ℚ)) := by
    intro k hk
    have hkmin : k ≤ min l n := Nat.lt_succ_iff.1 (Finset.mem_range.1 hk)
    have hkn : k ≤ n := le_trans hkmin (min_le_right l n)
    have hkl : k ≤ l := le_trans hkmin (min_le_left l n)
    rw [if_neg hdne, combination_natCast n k]
    have hc2 : combination (36 + (l : ℚ) - (n : ℚ)) ((l : ℚ) - (k : ℚ)) =
        ((36 + l - n).choose (l - k) : ℚ) := by
      have hn36l : n ≤ 36 + l := le_trans hn (Nat.le_add_right 36 l)
      have h1 : (36 : ℚ) + (l : ℚ) - (n : ℚ) = ((36 + l - n : ℕ) : ℚ) := by
        rw [Nat.cast_sub hn36l]
        push_cast
        ring
      have h2 : (l : ℚ) - (k : ℚ) = ((l - k : ℕ) : ℚ) := by
        rw [Nat.cast_sub hkl]
      rw [h1, h2, combination_natCast]
    have hz : zeroHitHypergeometric 36 ((n : ℚ) - (k : ℚ)) (l : ℚ) =
        ((36 - (n - k)).choose l : ℚ) / ((36).choose l : ℚ) := by
      have hkt : n - k ≤ 36 := le_trans (Nat.sub_le n k) hn
      have h36 : (36 : ℚ) = ((36 : ℕ) : ℚ) := by norm_num
      have hnk : (n : ℚ) - (k : ℚ) = ((n - k : ℕ) : ℚ) := by
        rw [Nat.cast_sub hkn]
      rw [h36, hnk, zeroHit_choose hkt hl]
    rw [hc2, hz, denom36l_eq]
    push_cast
    field_simp
  rw [Finset.sum_congr rfl hterm, ← Finset.sum_div]
  have hNat : ∑ k ∈ Finset.range (min l n + 1),
      ((n.choose k * (36 + l - n).choose (l - k) * (36 - (n - k)).choose l : ℕ) : ℚ) =
      (((36 + l - n).choose l * (36).choose l : ℕ) : ℚ) := by
    have hext : ∑ k ∈ Finset.range (min l n + 1),
        (n.choose k * (36 + l - n).choose (l - k) * (36 - (n - k)).choose l) =
        ∑ k ∈ Finset.range (l + 1),
          (n.choose k * (36 + l - n).choose (l - k) * (36 - (n - k)).choose l) := by
      refine Finset.sum_subset (Finset.range_subset.2 (by omega)) ?_
      intro k hk hknot
      have hkl : k < l + 1 := Finset.mem_range.1 hk
      have hkgt : min l n < k := by
        by_contra hcon
        exact hknot (Finset.mem_range.2 (by omega))
      have hkn : n < k := by omega
      rw [Nat.choose_eq_zero_of_lt hkn, Nat.zero_mul, Nat.zero_mul]
    have hshape : ∀ k ∈ Finset.range (l + 1),
        n.choose k * (36 + l - n).choose (l - k) * (36 - (n - k)).choose l =
        n.choose k * (36 + l - n).choose (l - k) *
          ((36 + l - n) - (l - k)).choose l := by
      intro k hk
      have hkl : k ≤ l := Nat.lt_succ_iff.1 (Finset.mem_range.1 hk)
      by_cases hkn2 : k ≤ n
      · congr 2
        omega
      · push_neg at hkn2
        simp [Nat.choose_eq_zero_of_lt hkn2]
    have hid := noKeep_choose_identity n (36 + l - n) l
    have hfin : n + ((36 + l - n) - l) = 36 := by omega
    have hnat2 : ∑ k ∈ Finset.range (min l n + 1),
        (n.choose k * (36 + l - n).choose (l - k) * (36 - (n - k)).choose l) =
        (36 + l - n).choose l * (36).choose l := by
      rw [hext, Finset.sum_congr rfl hshape, hid, hfin]
    rw [← Nat.cast_sum, hnat2]
  rw [hNat]
  have hcancel : (((36 + l - n).choose l * (36).choose l : ℕ) : ℚ) =
      ((36 + l - n).choose l : ℚ) * ((36).choose l : ℚ) := by push_cast; ring
  rw [hcancel, mul_div_mul_right _ _ (ne_of_gt h36pos)]

theorem zeroHit_zero_of_lgt36 {l n k : ℕ} (hl : 37 ≤ l) (hkn : k < n) :
    zeroHitHypergeometric 36 ((n : ℚ) - (k : ℚ)) (l : ℚ) = 0 := by
  refine zeroHit_of_total_lt_draws ?_ (by norm_num) ?_
  · have : (k : ℚ) + 1 ≤ (n : ℚ) := by exact_mod_cast hkn
    linarith
  · have : (37 : ℚ) ≤ (l : ℚ) := by exact_mod_cast hl
    linarith

/-- Region `l ≤ 36`, `n ≥ 37`: every summand vanishes. -/
theorem sumN_R2 {l n : ℕ} (hl : l ≤ 36) (hn : 37 ≤ n) : noKeepSumN l n = 0 := by
  unfold noKeepSumN
  refine Finset.sum_eq_zero fun k hk => ?_
  have hkl : k ≤ l := le_trans (Nat.lt_succ_iff.1 (Finset.mem_range.1 hk))
    (min_le_left l n)
  rcases Nat.eq_zero_or_pos l with hl0 | hlpos
  · subst hl0
    have hk0 : k = 0 := Nat.le_zero.1 hkl
    subst hk0
    have hc : combination (36 + ((0 : ℕ) : ℚ) - (n : ℚ)) (((0 : ℕ) : ℚ) - ((0 : ℕ) : ℚ)) = 0 := by
      have h1 : (36 : ℚ) + ((0 : ℕ) : ℚ) - (n : ℚ) = ((36 - (n : ℤ) : ℤ) : ℚ) := by
        push_cast
        ring
      have h2 : ((0 : ℕ) : ℚ) - ((0 : ℕ) : ℚ) = (((0 : ℤ) : ℤ) : ℚ) := by norm_num
      rw [h1, h2, combination_intCast]
      rw [if_neg]
      push_neg
      intro _
      omega
    rw [hc]
    split_ifs with h
    · rw [zero_mul]
    · rw [mul_zero, zero_div, zero_mul]
  · have hz : zeroHitHypergeometric 36 ((n : ℚ) - (k : ℚ)) ((l : ℕ) : ℚ) = 0 := by
      by_cases hnk : n - k ≤ 36
      · have hnkk : k ≤ n := by omega
        have hcast : (n : ℚ) - (k : ℚ) = ((n - k : ℕ) : ℚ) := by
          rw [Nat.cast_sub hnkk]
        have h36 : (36 : ℚ) = ((36 : ℕ) : ℚ) := by norm_num
        rw [hcast, h36, zeroHit_choose hnk hl]
        have hlt : 36 - (n - k) < l := by omega
        rw [Nat.choose_eq_zero_of_lt hlt]
        norm_num
      · push_neg at hnk
        refine zeroHit_of_nonTargets_neg ?_ ?_ ?_
        · exact_mod_cast hlpos
        · have : (l : ℚ) ≤ 36 := by exact_mod_cast hl
          linarith
        · have h1 : (37 : ℚ) ≤ ((n - k : ℕ) : ℚ) := by exact_mod_cast hnk
          have hkn : k ≤ n := by omega
          have h2 : ((n - k : ℕ) : ℚ) = (n : ℚ) - (k : ℚ) := Nat.cast_sub hkn
          linarith
    rw [hz, mul_zero]

/-- Region `l ≥ 37`, `n ≤ l`: only the `k = n` summand survives. -/
theorem sumN_R3 {l n : ℕ} (hl : 37 ≤ l) (hn : n ≤ l) :
    noKeepSumN l n = ((36 + l - n).choose (l - n) : ℚ) / ((36 + l).choose l : ℚ) := by
  unfold noKeepSumN
  have hmin : min l n = n := min_eq_right hn
  rw [hmin]
  have hdne : combination (36 + (l : ℚ)) (l : ℚ) ≠ 0 := ne_of_gt (denom36l_pos l)
  rw [Finset.sum_eq_single_of_mem n (Finset.mem_range.2 (Nat.lt_succ_self n))]
  · rw [if_neg hdne, combination_natCast n n, Nat.choose_self]
    have hc2 : combination (36 + (l : ℚ) - (n : ℚ)) ((l : ℚ) - (n : ℚ)) =
        ((36 + l - n).choose (l - n) : ℚ) := by
      have hn36l : n ≤ 36 + l := by omega
      have h1 : (36 : ℚ) + (l : ℚ) - (n : ℚ) = ((36 + l - n : ℕ) : ℚ) := by
        rw [Nat.cast_sub hn36l]
        push_cast
        ring
      have h2 : (l : ℚ) - (n : ℚ) = ((l - n : ℕ) : ℚ) := by
        rw [Nat.cast_sub hn]
      rw [h1, h2, combination_natCast]
    have hz : zeroHitHypergeometric 36 ((n : ℚ) - (n : ℚ)) (l : ℚ) = 1 :=
      zeroHit_of_target_nonpos (by norm_num)
    rw [hc2, hz, denom36l_eq, mul_one, Nat.cast_one, one_mul]
  · intro k hk hkne
    have hkn : k < n := by
      have := Finset.mem_range.1 hk
      omega
    rw [zeroHit_zero_of_lgt36 hl hkn, mul_zero]

/-- Region `l ≥ 37`, `n > l`: every summand vanishes. -/
theorem sumN_R4 {l n : ℕ} (hl : 37 ≤ l) (hn : l < n) : noKeepSumN l n = 0 := by
  unfold noKeepSumN
  refine Finset.sum_eq_zero fun k hk => ?_
  have hkn : k < n := by
    have := Finset.mem_range.1 hk
    have := min_le_left l n
    omega
  rw [zeroHit_zero_of_lgt36 hl hkn, mul_zero]

/-!
## Anti-monotonicity of the no-keep summation
-/

theorem sumN_anti_n_succ (l n : ℕ) : noKeepSumN l (n + 1) ≤ noKeepSumN l n := by
  by_cases hl : l ≤ 36
  · by_cases hn1 : n + 1 ≤ 36
    · rw [sumN_R1 hl hn1, sumN_R1 hl (by omega)]
      have hD : (0 : ℚ) < ((36 + l).choose l : ℚ) := by
        exact_mod_cast Nat.choose_pos (Nat.le_add_left l 36)
      refine (div_le_div_iff_of_pos_right hD).2 ?_
      exact_mod_cast Nat.choose_le_choose l (by omega)
    · rw [sumN_R2 hl (by omega)]
      exact noKeepSumN_nonneg l n
  · push_neg at hl
    have hl37 : 37 ≤ l := hl
    by_cases hn1 : n + 1 ≤ l
    · rw [sumN_R3 hl37 hn1, sumN_R3 hl37 (by omega)]
      have hD : (0 : ℚ) < ((36 + l).choose l : ℚ) := by
        exact_mod_cast Nat.choose_pos (Nat.le_add_left l 36)
      refine (div_le_div_iff_of_pos_right hD).2 ?_
      have hL : (36 + l - (n + 1)).choose (l - (n + 1)) =
          (36 + l - (n + 1)).choose 36 := by
        calc (36 + l - (n + 1)).choose (l - (n + 1))
            = (36 + l - (n + 1)).choose ((36 + l - (n + 1)) - 36) := by
              congr 1
              omega
          _ = (36 + l - (n + 1)).choose 36 := Nat.choose_symm (by omega)
      have hR : (36 + l - n).choose (l - n) = (36 + l - n).choose 36 := by
        calc (36 + l - n).choose (l - n)
            = (36 + l - n).choose ((36 + l - n) - 36) := by
              congr 1
              omega
          _ = (36 + l - n).choose 36 := Nat.choose_symm (by omega)
      rw [hL, hR]
      exact_mod_cast Nat.choose_le_choose 36 (by omega)
    · rw [sumN_R4 hl37 (by omega)]
      exact noKeepSumN_nonneg l n

theorem sumN_anti_n (l : ℕ) {n n' : ℕ} (h : n ≤ n') :
    noKeepSumN l n' ≤ noKeepSumN l n := by
  induction n', h using Nat.le_induction with
  | base => exact le_refl _
  | succ m hm ih => exact le_trans (sumN_anti_n_succ l m) ih

theorem sumN_anti_l_succ {l : ℕ} (n : ℕ) (hl1 : l + 1 ≤ 36) :
    noKeepSumN (l + 1) n ≤ noKeepSumN l n := by
  by_cases hn : n ≤ 36
  · rw [sumN_R1 hl1 hn, sumN_R1 (by omega) hn]
    have hb : (0 : ℚ) < ((36 + (l + 1)).choose (l + 1) : ℚ) := by
      exact_mod_cast Nat.choose_pos (Nat.le_add_left (l + 1) 36)
    have hd : (0 : ℚ) < ((36 + l).choose l : ℚ) := by
      exact_mod_cast Nat.choose_pos (Nat.le_add_left l 36)
    rw [div_le_div_iff₀ hb hd]
    have hnat : (36 + (l + 1) - n).choose (l + 1) * (36 + l).choose l * (l + 1) ≤
        (36 + l - n).choose l * (36 + (l + 1)).choose (l + 1) * (l + 1) := by
      have habs1 : (37 + l - n) * (36 + l - n).choose l =
          (36 + (l + 1) - n).choose (l + 1) * (l + 1) := by
        have h := Nat.succ_mul_choose_eq (36 + l - n) l
        have he1 : Nat.succ (36 + l - n) = 37 + l - n := by omega
        have he2 : Nat.succ (36 + l - n) = 36 + (l + 1) - n := by omega
        rw [he1] at h
        rw [h]
        congr 2
        omega
      have habs2 : (37 + l) * (36 + l).choose l =
          (36 + (l + 1)).choose (l + 1) * (l + 1) := by
        have h := Nat.succ_mul_choose_eq (36 + l) l
        have he1 : Nat.succ (36 + l) = 37 + l := by omega
        rw [he1] at h
        rw [h]
        congr 2
        omega
      calc (36 + (l + 1) - n).choose (l + 1) * (36 + l).choose l * (l + 1)
          = ((36 + (l + 1) - n).choose (l + 1) * (l + 1)) * (36 + l).choose l := by ring
        _ = ((37 + l - n) * (36 + l - n).choose l) * (36 + l).choose l := by rw [habs1]
        _ ≤ ((37 + l) * (36 + l - n).choose l) * (36 + l).choose l := by
            have : 37 + l - n ≤ 37 + l := by omega
            exact Nat.mul_le_mul_right _ (Nat.mul_le_mul_right _ this)
        _ = (36 + l - n).choose l * ((37 + l) * (36 + l).choose l) := by ring
        _ = (36 + l - n).choose l * ((36 + (l + 1)).choose (l + 1) * (l + 1)) := by rw [habs2]
        _ = (36 + l - n).choose l * (36 + (l + 1)).choose (l + 1) * (l + 1) := by ring
    have hnat2 : (36 + (l + 1) - n).choose (l + 1) * (36 + l).choose l ≤
        (36 + l - n).choose l * (36 + (l + 1)).choose (l + 1) :=
      Nat.le_of_mul_le_mul_right hnat (by omega)
    exact_mod_cast hnat2
  · push_neg at hn
    rw [sumN_R2 hl1 (by omega), sumN_R2 (by omega) (by omega)]

theorem sumN_anti_l (n : ℕ) {l l' : ℕ} (h : l ≤ l') (h36 : l' ≤ 36) :
    noKeepSumN l' n ≤ noKeepSumN l n := by
  induction l', h using Nat.le_induction with
  | base => exact le_refl _
  | succ m hm ih =>
      exact le_trans (sumN_anti_l_succ n (by omega)) (ih (by omega))

/-- The no-keep model is non-decreasing in the raw mulligan count, as long
as the larger mulligan count is at most 36. -/
theorem probNoKeep_mono_l {a a' : ℚ} (b c : ℚ) (ha : a ≤ a') (ha36 : a' ≤ 36) :
    probabilityAtLeastOne .noKeep a b c ≤ probabilityAtLeastOne .noKeep a' b c := by
  rw [probNoKeep_eq_sumN, probNoKeep_eq_sumN]
  refine clamp_mono_value 0 1 ?_
  have hq0 := zeroHit_nonneg 36 ((nclamp b 40 : ℕ) : ℚ) ((nclamp c 40 : ℕ) : ℚ)
  have hLL : nclamp a 40 ≤ nclamp a' 40 := nclamp_mono 40 ha
  have hL36 : nclamp a' 40 ≤ 36 := by
    have hfl : ⌊a'⌋ ≤ 36 := by
      have h1 : ⌊a'⌋ ≤ ⌊(36 : ℚ)⌋ := Int.floor_le_floor ha36
      have h2 : ⌊(36 : ℚ)⌋ = 36 := by norm_num
      omega
    unfold nclamp
    omega
  have hS := sumN_anti_l (nclamp b 40) hLL hL36
  nlinarith [hS, hq0]

/-- The no-keep model is non-decreasing in the raw target count. -/
theorem probNoKeep_mono_n {b b' : ℚ} (a c : ℚ) (hb : b ≤ b') :
    probabilityAtLeastOne .noKeep a b c ≤ probabilityAtLeastOne .noKeep a b' c := by
  rw [probNoKeep_eq_sumN, probNoKeep_eq_sumN]
  refine clamp_mono_value 0 1 ?_
  have hNN : nclamp b 40 ≤ nclamp b' 40 := nclamp_mono 40 hb
  have hNq : ((nclamp b 40 : ℕ) : ℚ) ≤ ((nclamp b' 40 : ℕ) : ℚ) := by exact_mod_cast hNN
  have hq : zeroHitHypergeometric 36 ((nclamp b' 40 : ℕ) : ℚ) ((nclamp c 40 : ℕ) : ℚ) ≤
      zeroHitHypergeometric 36 ((nclamp b 40 : ℕ) : ℚ) ((nclamp c 40 : ℕ) : ℚ) :=
    zeroHit_anti_target 36 _ hNq
  have hS := sumN_anti_n (nclamp a 40) hNN
  have hS0 := noKeepSumN_nonneg (nclamp a 40) (nclamp b' 40)
  have hq0 := zeroHit_nonneg 36 ((nclamp b 40 : ℕ) : ℚ) ((nclamp c 40 : ℕ) : ℚ)
  have hmul : zeroHitHypergeometric 36 ((nclamp b' 40 : ℕ) : ℚ) ((nclamp c 40 : ℕ) : ℚ) *
      noKeepSumN (nclamp a 40) (nclamp b' 40) ≤
      zeroHitHypergeometric 36 ((nclamp b 40 : ℕ) : ℚ) ((nclamp c 40 : ℕ) : ℚ) *
        noKeepSumN (nclamp a 40) (nclamp b 40) :=
    mul_le_mul hq hS hS0 hq0
  linarith

/-!
## Concrete no-keep values at the mulligan-count clamp boundary
-/

theorem probNoKeep_at_l36 : probabilityAtLeastOne .noKeep 36 1 0 = 1 / 2 := by
  have hval := probNoKeep_eq_sumN 36 1 0
  have hn36 : nclamp (36 : ℚ) 40 = 36 := by unfold nclamp; norm_num; try decide
  have hn1 : nclamp (1 : ℚ) 40 = 1 := by unfold nclamp; norm_num; try decide
  have hn0 : nclamp (0 : ℚ) 40 = 0 := by unfold nclamp; norm_num; try decide
  rw [hn36, hn1, hn0] at hval
  rw [hval]
  have hz : zeroHitHypergeometric 36 ((1 : ℕ) : ℚ) ((0 : ℕ) : ℚ) = 1 :=
    zeroHit_of_draws_nonpos (by norm_num)
  rw [hz, sumN_R1 (by norm_num) (by norm_num)]
  have hidx : 36 + 36 - 1 = 71 := by norm_num
  rw [hidx]
  have h1 : (72).choose 36 = (71).choose 35 + (71).choose 36 := Nat.choose_succ_succ 71 35
  have h2 : (71).choose 36 = (71).choose 35 := by
    have h := Nat.choose_symm (show 35 ≤ 71 by norm_num)
    have h35 : 71 - 35 = 36 := by norm_num
    rw [h35] at h
    exact h
  have hpascal : ((36 + 36).choose 36 : ℚ) = 2 * ((71).choose 36 : ℚ) := by
    have h36x : (36 : ℕ) + 36 = 72 := by norm_num
    rw [h36x]
    push_cast [h1, h2]
    ring
  have h71 : (0 : ℚ) < ((71).choose 36 : ℚ) := by
    exact_mod_cast Nat.choose_pos (show 36 ≤ 71 by norm_num)
  have hratio : ((71).choose 36 : ℚ) / ((36 + 36).choose 36 : ℚ) = 1 / 2 := by
    rw [hpascal, div_eq_div_iff (by positivity) (by norm_num)]
    ring
  rw [hratio]
  norm_num [clamp]

theorem probNoKeep_at_l37 : probabilityAtLeastOne .noKeep 37 1 0 = 36 / 73 := by
  have hval := probNoKeep_eq_sumN 37 1 0
  have hn37 : nclamp (37 : ℚ) 40 = 37 := by unfold nclamp; norm_num; try decide
  have hn1 : nclamp (1 : ℚ) 40 = 1 := by unfold nclamp; norm_num; try decide
  have hn0 : nclamp (0 : ℚ) 40 = 0 := by unfold nclamp; norm_num; try decide
  rw [hn37, hn1, hn0] at hval
  rw [hval]
  have hz : zeroHitHypergeometric 36 ((1 : ℕ) : ℚ) ((0 : ℕ) : ℚ) = 1 :=
    zeroHit_of_draws_nonpos (by norm_num)
  rw [hz, sumN_R3 (by norm_num) (by norm_num)]
  have hidx1 : 36 + 37 - 1 = 72 := by norm_num
  have hidx2 : 37 - 1 = 36 := by norm_num
  have hidx3 : (36 : ℕ) + 37 = 73 := by norm_num
  rw [hidx1, hidx2, hidx3]
  have habs : 73 * (72).choose 36 = (73).choose 37 * 37 := by
    have h := Nat.succ_mul_choose_eq 72 36
    exact h
  have h73 : (0 : ℚ) < ((73).choose 37 : ℚ) := by
    exact_mod_cast Nat.choose_pos (show 37 ≤ 73 by norm_num)
  have hratio : ((72).choose 36 : ℚ) / ((73).choose 37 : ℚ) = 37 / 73 := by
    have habsq : (73 : ℚ) * ((72).choose 36 : ℚ) = ((73).choose 37 : ℚ) * 37 := by
      exact_mod_cast habs
    rw [div_eq_div_iff (by positivity) (by norm_num)]
    linarith
  rw [hratio]
  norm_num [clamp]

theorem clamp01_of_mem {x : ℚ} (h0 : 0 ≤ x) (h1 : x ≤ 1) : clamp x 0 1 = x := by
  unfold clamp
  rw [min_eq_right h1, max_eq_right h0]

/-- For `n = 3`, `l = 0` and any integer `m` the no-keep model, the
restricted keep-only model and the plain later-draw formula agree. -/
theorem noKeep_collapse (m : ℤ) :
    probabilityAtLeastOne .noKeep 0 3 ((m : ℤ) : ℚ) =
        probabilityAtLeastOneKeep 3 0 ((m : ℤ) : ℚ) ∧
      probabilityAtLeastOneKeep 3 0 ((m : ℤ) : ℚ) =
        1 - zeroHitHypergeometric 36 3 ((m : ℤ) : ℚ) := by
  have hn0 : nclamp (0 : ℚ) 40 = 0 := by unfold nclamp; norm_num; try decide
  have hn3 : nclamp (3 : ℚ) 40 = 3 := by unfold nclamp; norm_num; try decide
  -- the common clamped draw count
  set M : ℕ := nclamp ((m : ℤ) : ℚ) 40 with hM
  -- the summation collapses to 1
  have hsum : noKeepSumN 0 3 = 1 := by
    rw [sumN_R1 (by norm_num) (by norm_num)]
    norm_num
  -- the no-keep side
  have hA : probabilityAtLeastOne .noKeep 0 3 ((m : ℤ) : ℚ) =
      clamp (1 - zeroHitHypergeometric 36 ((3 : ℕ) : ℚ) ((M : ℕ) : ℚ)) 0 1 := by
    rw [probNoKeep_eq_sumN, hn0, hn3, hsum, mul_one]
  -- the restricted keep side
  have hB : probabilityAtLeastOneKeep 3 0 ((m : ℤ) : ℚ) =
      clamp (1 - zeroHitHypergeometric 36 3 ((M : ℕ) : ℚ)) 0 1 := by
    rw [probKeepR_def]
    have h3 : clamp ((⌊(3 : ℚ)⌋ : ℚ)) 0 40 = 3 := by norm_num [clamp]
    have h0 : clamp ((⌊(0 : ℚ)⌋ : ℚ)) 0 4 = 0 := by norm_num [clamp]
    have hm : clamp ((⌊((m : ℤ) : ℚ)⌋ : ℚ)) 0 40 = ((M : ℕ) : ℚ) :=
      clampFloor40_natCast _
    rw [h3, h0, hm, zeroHit_of_draws_nonpos (le_refl (0 : ℚ)), one_mul]
  -- the clamped and the raw draw count give the same ratio
  have hzz : zeroHitHypergeometric 36 3 ((M : ℕ) : ℚ) =
      zeroHitHypergeometric 36 3 ((m : ℤ) : ℚ) := by
    have hMval : M = (max 0 (min 40 m)).toNat := by
      rw [hM]
      unfold nclamp
      rw [Int.floor_intCast]
    by_cases hm0 : m ≤ 0
    · have hM0 : M = 0 := by omega
      rw [hM0, zeroHit_of_draws_nonpos (by norm_num),
        zeroHit_of_draws_nonpos (by exact_mod_cast hm0)]
    · push_neg at hm0
      by_cases hm40 : m ≤ 40
      · have hMm : (M : ℤ) = m := by omega
        have : ((M : ℕ) : ℚ) = ((m : ℤ) : ℚ) := by exact_mod_cast hMm
        rw [this]
      · push_neg at hm40
        have hM40 : M = 40 := by omega
        rw [hM40, zeroHit_of_total_lt_draws (by norm_num) (by norm_num) (by norm_num),
          zeroHit_of_total_lt_draws (by norm_num) (by norm_num)
            (by exact_mod_cast (by omega : (36 : ℤ) < m))]
  have hcast3 : ((3 : ℕ) : ℚ) = (3 : ℚ) := by norm_num
  constructor
  · rw [hA, hB, hcast3]
  · rw [hB, hzz]
    exact clamp01_of_mem (by linarith [zeroHit_le_one 36 3 ((m : ℤ) : ℚ)])
      (by linarith [zeroHit_nonneg 36 3 ((m : ℤ) : ℚ)])

/-- For positive integer inputs, drawing more cards than there are
non-target cards forces a hit (ratio 0). -/
theorem zeroHit_zero_of_many_draws {t k d : ℤ} (ht : 1 ≤ t) (hk : 1 ≤ k) (hd : 1 ≤ d)
    (hgt : t - k < d) : zeroHitHypergeometric (t : ℚ) (k : ℚ) (d : ℚ) = 0 := by
  have hkq : (0 : ℚ) < (k : ℚ) := by exact_mod_cast hk
  have htq : (0 : ℚ) < (t : ℚ) := by exact_mod_cast ht
  have hdq : (0 : ℚ) < (d : ℚ) := by exact_mod_cast hd
  by_cases htd : t < d
  · exact zeroHit_of_total_lt_draws hkq htq (by exact_mod_cast htd)
  push_neg at htd
  have htdq : (d : ℚ) ≤ (t : ℚ) := by exact_mod_cast htd
  by_cases hneg : t - k < 0
  · refine zeroHit_of_nonTargets_neg hdq htdq ?_
    have : ((t - k : ℤ) : ℚ) < 0 := by exact_mod_cast hneg
    push_cast at this
    linarith
  push_neg at hneg
  have haq : (0 : ℚ) ≤ (t : ℚ) - (k : ℚ) := by
    have : (0 : ℚ) ≤ ((t - k : ℤ) : ℚ) := by exact_mod_cast hneg
    push_cast at this
    linarith
  rw [zeroHit_main hdq hkq htq htdq haq]
  have hceil : (⌈((d : ℤ) : ℚ)⌉).toNat = d.toNat := by rw [Int.ceil_intCast]
  rw [hceil]
  have hex : ∃ j ∈ Finset.range d.toNat, (t : ℚ) - (k : ℚ) - (j : ℚ) ≤ 0 := by
    refine ⟨(t - k).toNat, Finset.mem_range.2 (by omega), ?_⟩
    have hcast : (((t - k).toNat : ℕ) : ℚ) = (t : ℚ) - (k : ℚ) := by
      have h1 : (((t - k).toNat : ℕ) : ℤ) = t - k := Int.toNat_of_nonneg hneg
      have h2 : (((t - k).toNat : ℕ) : ℚ) = ((t - k : ℤ) : ℚ) := by exact_mod_cast h1
      rw [h2]
      push_cast
      ring
    rw [hcast]
    linarith
  rw [if_pos hex]

/-!
## The Js layer: JavaScript numbers with NaN and infinities

A JavaScript number is modelled as NaN, one of the two infinities, or an
exact rational.  The arithmetic, comparison, `Math.min` / `Math.max` and
`Math.floor` rules below are JavaScript's (IEEE-754 without rounding and
without the sign of zero - none of the analysed code distinguishes
`+0` from `-0`).
-/

inductive JsNum where
  | nan
  | posInf
  | negInf
  | fin (q : ℚ)
deriving DecidableEq

def JsNum.isNaN : JsNum → Bool
  | .nan => true
  | _ => false

def JsNum.isFinite : JsNum → Bool
  | .fin _ => true
  | _ => false

/-- JavaScript `x <= y` (false whenever an operand is NaN). -/
def jsLe : JsNum → JsNum → Bool
  | .nan, _ => false
  | _, .nan => false
  | .negInf, _ => true
  | _, .posInf => true
  | .posInf, _ => false
  | .fin _, .negInf => false
  | .fin a, .fin b => decide (a ≤ b)

/-- JavaScript `x < y` (false whenever an operand is NaN). -/
def jsLt : JsNum → JsNum → Bool
  | .nan, _ => false
  | _, .nan => false
  | .negInf, .negInf => false
  | .negInf, _ => true
  | .posInf, _ => false
  | .fin _, .posInf => true
  | .fin _, .negInf => false
  | .fin a, .fin b => decide (a < b)

def jsAdd : JsNum → JsNum → JsNum
  | .nan, _ => .nan
  | _, .nan => .nan
  | .posInf, .negInf => .nan
  | .negInf, .posInf => .nan
  | .posInf, _ => .posInf
  | _, .posInf => .posInf
  | .negInf, _ => .negInf
  | _, .negInf => .negInf
  | .fin a, .fin b => .fin (a + b)

def jsSub : JsNum → JsNum → JsNum
  | .nan, _ => .nan
  | _, .nan => .nan
  | .posInf, .posInf => .nan
  | .negInf, .negInf => .nan
  | .posInf, _ => .posInf
  | _, .posInf => .negInf
  | .negInf, _ => .negInf
  | _, .negInf => .posInf
  | .fin a, .fin b => .fin (a - b)

def jsMul : JsNum → JsNum → JsNum
  | .nan, _ => .nan
  | _, .nan => .nan
  | .posInf, .posInf => .posInf
  | .posInf, .negInf => .negInf
  | .negInf, .posInf => .negInf
  | .negInf, .negInf => .posInf
  | .posInf, .fin q => if q = 0 then .nan else if 0 < q then .posInf else .negInf
  | .fin q, .posInf => if q = 0 then .nan else if 0 < q then .posInf else .negInf
  | .negInf, .fin q => if q = 0 then .nan else if 0 < q then .negInf else .posInf
  | .fin q, .negInf => if q = 0 then .nan else if 0 < q then .negInf else .posInf
  | .fin a, .fin b => .fin (a * b)

def jsDiv : JsNum → JsNum → JsNum
  | .nan, _ => .nan
  | _, .nan => .nan
  | .posInf, .posInf => .nan
  | .posInf, .negInf => .nan
  | .negInf, .posInf => .nan
  | .negInf, .negInf => .nan
  | .posInf, .fin q => if 0 ≤ q then .posInf else .negInf
  | .negInf, .fin q => if 0 ≤ q then .negInf else .posInf
  | .fin _, .posInf => .fin 0
  | .fin _, .negInf => .fin 0
  | .fin a, .fin b =>
      if b = 0 then (if a = 0 then .nan else if 0 < a then .posInf else .negInf)
      else .fin (a / b)

def jsFloor : JsNum → JsNum
  | .nan => .nan
  | .posInf => .posInf
  | .negInf => .negInf
  | .fin q => .fin ((⌊q⌋ : ℚ))

/-- JavaScript `Math.min` (NaN-propagating). -/
def jsMin : JsNum → JsNum → JsNum
  | .nan, _ => .nan
  | _, .nan => .nan
  | .negInf, _ => .negInf
  | _, .negInf => .negInf
  | .posInf, y => y
  | x, .posInf => x
  | .fin a, .fin b => .fin (min a b)

/-- JavaScript `Math.max` (NaN-propagating). -/
def jsMax : JsNum → JsNum → JsNum
  | .nan, _ => .nan
  | _, .nan => .nan
  | .posInf, _ => .posInf
  | _, .posInf => .posInf
  | .negInf, y => y
  | x, .negInf => x
  | .fin a, .fin b => .fin (max a b)

/-- Source `clamp` on the Js layer. -/
def jsClamp (value lo hi : JsNum) : JsNum := jsMax lo (jsMin hi value)

/-- Number of iterations of `for (let i = 0; i < bound; i++)` with an
integer counter.  For `bound = posInf` the JavaScript loop would not
terminate; that state is unreachable from the model entry points (every
loop bound below is first floored and clamped, or guarded by
`draws > total` with a finite `total`), and it is mapped to 0 here. -/
def jsLoopCountLt : JsNum → ℕ
  | .fin q => (⌈q⌉).toNat
  | _ => 0

/-- Number of iterations of `for (let k = 0; k <= bound; k++)` with an
integer counter; same remark about `posInf` as for `jsLoopCountLt`. -/
def jsLoopCountLe : JsNum → ℕ
  | .fin q => (⌊q⌋ + 1).toNat
  | _ => 0

/-- Js-layer version of the `combination` loop. -/
def combLoopJs (base : JsNum) : ℕ → ℕ → JsNum → JsNum
  | 0, _, result => result
  | fuel + 1, i, result =>
      combLoopJs base fuel (i + 1)
        (jsMul result (jsDiv (jsAdd base (.fin (i : ℚ))) (.fin (i : ℚ))))

/-- Source `combination` on the Js layer.  The final catch-all row is the
source's `!Number.isFinite(n) || !Number.isFinite(k)` guard returning 0. -/
def combinationJs : JsNum → JsNum → JsNum
  | .fin nq, .fin kq =>
      let nf : ℤ := ⌊nq⌋
      let kf : ℤ := ⌊kq⌋
      if kf < 0 ∨ nf < kf then .fin 0
      else
        let kEff : ℤ := min kf (nf - kf)
        if kEff = 0 then .fin 1
        else combLoopJs (.fin ((nf : ℚ) - (kEff : ℚ))) kEff.toNat 1 (.fin 1)
  | _, _ => .fin 0

/-- Js-layer version of the zero-hit loop. -/
def zeroHitLoopJs (nonTargets total : JsNum) : ℕ → ℕ → JsNum → JsNum
  | 0, _, product => product
  | fuel + 1, i, product =>
      let numerator := jsSub nonTargets (.fin (i : ℚ))
      let denominator := jsSub total (.fin (i : ℚ))
      if jsLe numerator (.fin 0) then .fin 0
      else zeroHitLoopJs nonTargets total fuel (i + 1)
        (jsMul product (jsDiv numerator denominator))

/-- Source `zeroHitHypergeometricRatio` on the Js layer. -/
def zeroHitHypergeometricJs (total targetInDeck draws : JsNum) : JsNum :=
  if jsLe draws (.fin 0) then .fin 1
  else if jsLe targetInDeck (.fin 0) then .fin 1
  else if jsLe total (.fin 0) then .fin 1
  else if jsLt total draws then .fin 0
  else
    let nonTargets := jsSub total targetInDeck
    if jsLt nonTargets (.fin 0) then .fin 0
    else zeroHitLoopJs nonTargets total (jsLoopCountLt draws) 0 (.fin 1)

/-- The summation loop of the no-keep branch on the Js layer
(`sum += pl * qLk`). -/
def noKeepLoopJs (n l denomInitial : JsNum) : ℕ → ℕ → JsNum → JsNum
  | 0, _, sum => sum
  | fuel + 1, k, sum =>
      let plNumerator := jsMul (combinationJs n (.fin (k : ℚ)))
        (combinationJs (jsSub (jsAdd (.fin 36) l) n) (jsSub l (.fin (k : ℚ))))
      let pl := if denomInitial = .fin 0 then .fin 0 else jsDiv plNumerator denomInitial
      let qLk := zeroHitHypergeometricJs (.fin 36) (jsSub n (.fin (k : ℚ))) l
      noKeepLoopJs n l denomInitial fuel (k + 1) (jsAdd sum (jsMul pl qLk))

/-- Source `probabilityAtLeastOne` on the Js layer. -/
def probabilityAtLeastOneJs (keepMode : KeepMode)
    (mulliganCount targetsInDeck drawsFromDeck : JsNum) : JsNum :=
  let n := jsClamp (jsFloor targetsInDeck) (.fin 0) (.fin 40)
  let l := jsClamp (jsFloor mulliganCount) (.fin 0) (.fin 40)
  let m := jsClamp (jsFloor drawsFromDeck) (.fin 0) (.fin 40)
  match keepMode with
  | .keep =>
      let pNoInitial := zeroHitHypergeometricJs (.fin 40) n (.fin 4)
      let pNoMulligan := zeroHitHypergeometricJs (.fin 36) n l
      let pNoDraws := zeroHitHypergeometricJs (.fin 36) n m
      let pNo := jsMul (jsMul pNoInitial pNoMulligan) pNoDraws
      jsClamp (jsSub (.fin 1) pNo) (.fin 0) (.fin 1)
  | .noKeep =>
      let qM := zeroHitHypergeometricJs (.fin 36) n m
      let denomInitial := combinationJs (jsAdd (.fin 36) l) l
      let kMax := jsMin l n
      let sum := noKeepLoopJs n l denomInitial (jsLoopCountLe kMax) 0 (.fin 0)
      let pNo := jsMul qM sum
      jsClamp (jsSub (.fin 1) pNo) (.fin 0) (.fin 1)

/-- Source `probabilityAtLeastOneKeep` on the Js layer. -/
def probabilityAtLeastOneKeepJs (n l m : JsNum) : JsNum :=
  let nn := jsClamp (jsFloor n) (.fin 0) (.fin 40)
  let ll := jsClamp (jsFloor l) (.fin 0) (.fin 4)
  let mm := jsClamp (jsFloor m) (.fin 0) (.fin 40)
  let pNoMulligan := zeroHitHypergeometricJs (.fin 36) nn ll
  let pNoDraws := zeroHitHypergeometricJs (.fin 36) nn mm
  let pNo := jsMul pNoMulligan pNoDraws
  jsClamp (jsSub (.fin 1) pNo) (.fin 0) (.fin 1)

/-- "Is a number in the closed interval `[0,1]`" on the Js layer
(NaN and the infinities are not). -/
def jsInUnit : JsNum → Prop
  | .fin q => 0 ≤ q ∧ q ≤ 1
  | _ => False

/-!
## Bridges between the Js layer and the Q layer

On NaN-free inputs, every Js-layer function computes the `fin` of the
corresponding Q-layer value.
-/

theorem jsClamp_fin (v lo hi : ℚ) :
    jsClamp (.fin v) (.fin lo) (.fin hi) = .fin (clamp v lo hi) := rfl

/-- The rational standing for a non-NaN JavaScript number once it has been
floored and clamped into `[0,40]` (or `[0,4]`): the infinities behave like
`±41`, which both clamp bounds treat the same way. -/
def toQ : JsNum → ℚ
  | .nan => 0
  | .posInf => 41
  | .negInf => -41
  | .fin q => q

theorem jsClampFloor40 {x : JsNum} (hx : x.isNaN = false) :
    jsClamp (jsFloor x) (.fin 0) (.fin 40) = .fin (clamp ((⌊toQ x⌋ : ℚ)) 0 40) := by
  cases x with
  | nan => simp [JsNum.isNaN] at hx
  | posInf =>
      show jsClamp .posInf (.fin 0) (.fin 40) = _
      have h41 : ⌊(41 : ℚ)⌋ = 41 := by norm_num
      simp [jsClamp, jsMin, jsMax, toQ, clamp, h41]
      norm_num
  | negInf =>
      show jsClamp .negInf (.fin 0) (.fin 40) = _
      have h41 : ⌊(-41 : ℚ)⌋ = -41 := by norm_num
      simp [jsClamp, jsMin, jsMax, toQ, clamp, h41]
  | fin q =>
      show jsClamp (.fin ((⌊q⌋ : ℚ))) (.fin 0) (.fin 40) = _
      rw [jsClamp_fin]
      simp [toQ]

theorem jsClampFloor4 {x : JsNum} (hx : x.isNaN = false) :
    jsClamp (jsFloor x) (.fin 0) (.fin 4) = .fin (clamp ((⌊toQ x⌋ : ℚ)) 0 4) := by
  cases x with
  | nan => simp [JsNum.isNaN] at hx
  | posInf =>
      show jsClamp .posInf (.fin 0) (.fin 4) = _
      have h41 : ⌊(41 : ℚ)⌋ = 41 := by norm_num
      simp [jsClamp, jsMin, jsMax, toQ, clamp, h41]
      norm_num
  | negInf =>
      show jsClamp .negInf (.fin 0) (.fin 4) = _
      have h41 : ⌊(-41 : ℚ)⌋ = -41 := by norm_num
      simp [jsClamp, jsMin, jsMax, toQ, clamp, h41]
  | fin q =>
      show jsClamp (.fin ((⌊q⌋ : ℚ))) (.fin 0) (.fin 4) = _
      rw [jsClamp_fin]
      simp [toQ]

theorem combLoopJs_fin (base : ℚ) :
    ∀ (fuel i : ℕ) (acc : ℚ), 1 ≤ i →
      combLoopJs (.fin base) fuel i (.fin acc) = .fin (combLoop base fuel i acc) := by
  intro fuel
  induction fuel with
  | zero => intro i acc _; rfl
  | succ fuel ih =>
      intro i acc hi
      have hne : ((i : ℕ) : ℚ) ≠ 0 := by
        have : (0 : ℚ) < (i : ℚ) := by exact_mod_cast hi
        linarith
      show combLoopJs (.fin base) fuel (i + 1)
          (jsMul (.fin acc) (jsDiv (jsAdd (.fin base) (.fin (i : ℚ))) (.fin (i : ℚ)))) = _
      have hdiv : jsDiv (jsAdd (.fin base) (.fin (i : ℚ))) (.fin (i : ℚ)) =
          .fin ((base + (i : ℚ)) / (i : ℚ)) := by
        show jsDiv (.fin (base + (i : ℚ))) (.fin (i : ℚ)) = _
        simp only [jsDiv]
        rw [if_neg hne]
      rw [hdiv]
      show combLoopJs (.fin base) fuel (i + 1)
          (.fin (acc * ((base + (i : ℚ)) / (i : ℚ)))) = _
      rw [ih (i + 1) _ (by omega)]
      rfl

theorem combinationJs_fin (x y : ℚ) :
    combinationJs (.fin x) (.fin y) = .fin (combination x y) := by
  unfold combinationJs combination
  by_cases hg : ⌊y⌋ < 0 ∨ ⌊x⌋ < ⌊y⌋
  · simp only [if_pos hg]
  by_cases hE : min ⌊y⌋ (⌊x⌋ - ⌊y⌋) = 0
  · simp only [if_neg hg, if_pos hE]
  · simp only [if_neg hg, if_neg hE]
    exact combLoopJs_fin _ _ _ _ (le_refl 1)

theorem zeroHitLoopJs_fin (a t : ℚ) :
    ∀ (fuel i : ℕ) (p : ℚ), (∀ j : ℕ, i ≤ j → j < i + fuel → (j : ℚ) ≠ t) →
      zeroHitLoopJs (.fin a) (.fin t) fuel i (.fin p) = .fin (zeroHitLoop a t fuel i p) := by
  intro fuel
  induction fuel with
  | zero => intro i p _; rfl
  | succ fuel ih =>
      intro i p hden
      have hnum : jsSub (.fin a) (.fin (i : ℚ)) = .fin (a - (i : ℚ)) := rfl
      have hdeno : jsSub (.fin t) (.fin (i : ℚ)) = .fin (t - (i : ℚ)) := rfl
      show (if jsLe (jsSub (.fin a) (.fin (i : ℚ))) (.fin 0) = true then JsNum.fin 0
        else zeroHitLoopJs (.fin a) (.fin t) fuel (i + 1)
          (jsMul (.fin p) (jsDiv (jsSub (.fin a) (.fin (i : ℚ)))
            (jsSub (.fin t) (.fin (i : ℚ)))))) = _
      rw [hnum, hdeno]
      have hle : (jsLe (.fin (a - (i : ℚ))) (.fin 0) = true) ↔ a - (i : ℚ) ≤ 0 := by
        simp [jsLe]
      by_cases hcond : a - (i : ℚ) ≤ 0
      · have hstep0 : zeroHitLoop a t (fuel + 1) i p = 0 := by
          simp only [zeroHitLoop, if_pos hcond]
        rw [if_pos (hle.2 hcond), hstep0]
      · rw [if_neg (fun h => hcond (hle.1 h))]
        have htne : t - (i : ℚ) ≠ 0 := by
          have := hden i (le_refl i) (by omega)
          intro hcon
          exact this (by linarith)
        have hdiv : jsDiv (.fin (a - (i : ℚ))) (.fin (t - (i : ℚ))) =
            .fin ((a - (i : ℚ)) / (t - (i : ℚ))) := by
          simp only [jsDiv]
          rw [if_neg htne]
        have hstep : zeroHitLoop a t (fuel + 1) i p =
            zeroHitLoop a t fuel (i + 1) (p * ((a - (i : ℚ)) / (t - (i : ℚ)))) := by
          simp only [zeroHitLoop, if_neg hcond]
        rw [hdiv, hstep]
        show zeroHitLoopJs (.fin a) (.fin t) fuel (i + 1)
            (.fin (p * ((a - (i : ℚ)) / (t - (i : ℚ))))) = _
        rw [ih (i + 1) _ (fun j h1 h2 => hden j (by omega) (by omega))]

theorem zeroHitJs_fin (t k d : ℚ) :
    zeroHitHypergeometricJs (.fin t) (.fin k) (.fin d) =
      .fin (zeroHitHypergeometric t k d) := by
  unfold zeroHitHypergeometricJs zeroHitHypergeometric
  have hle1 : (jsLe (.fin d) (.fin 0) = true) ↔ d ≤ 0 := by simp [jsLe]
  have hle2 : (jsLe (.fin k) (.fin 0) = true) ↔ k ≤ 0 := by simp [jsLe]
  have hle3 : (jsLe (.fin t) (.fin 0) = true) ↔ t ≤ 0 := by simp [jsLe]
  have hlt4 : (jsLt (.fin t) (.fin d) = true) ↔ t < d := by simp [jsLt]
  by_cases h1 : d ≤ 0
  · rw [if_pos (hle1.2 h1), if_pos h1]
  rw [if_neg (fun h => h1 (hle1.1 h)), if_neg h1]
  by_cases h2 : k ≤ 0
  · rw [if_pos (hle2.2 h2), if_pos h2]
  rw [if_neg (fun h => h2 (hle2.1 h)), if_neg h2]
  by_cases h3 : t ≤ 0
  · rw [if_pos (hle3.2 h3), if_pos h3]
  rw [if_neg (fun h => h3 (hle3.1 h)), if_neg h3]
  by_cases h4 : t < d
  · rw [if_pos (hlt4.2 h4), if_pos h4]
  rw [if_neg (fun h => h4 (hlt4.1 h)), if_neg h4]
  have hsub : jsSub (.fin t) (.fin k) = .fin (t - k) := rfl
  rw [hsub]
  have hlt5 : (jsLt (.fin (t - k)) (.fin 0) = true) ↔ t - k < 0 := by simp [jsLt]
  by_cases h5 : t - k < 0
  · rw [if_pos (hlt5.2 h5), if_pos h5]
  rw [if_neg (fun h => h5 (hlt5.1 h)), if_neg h5]
  show zeroHitLoopJs (.fin (t - k)) (.fin t) (jsLoopCountLt (.fin d)) 0 (.fin 1) = _
  have hcount : jsLoopCountLt (.fin d) = (⌈d⌉).toNat := rfl
  rw [hcount]
  refine zeroHitLoopJs_fin (t - k) t _ 0 1 fun j hj1 hj2 => ?_
  have hjd : (j : ℚ) < d := mem_range_ceil_lt (Finset.mem_range.2 (by omega))
  push_neg at h4
  intro hcon
  rw [hcon] at hjd
  linarith

theorem noKeepLoopJs_fin (n l den : ℚ) :
    ∀ (fuel k : ℕ) (s : ℚ),
      noKeepLoopJs (.fin n) (.fin l) (.fin den) fuel k (.fin s) =
        .fin (s + ∑ j ∈ Finset.range fuel,
          (if den = 0 then 0
           else combination n (((k + j : ℕ)) : ℚ) *
             combination (36 + l - n) (l - (((k + j : ℕ)) : ℚ)) / den) *
          zeroHitHypergeometric 36 (n - (((k + j : ℕ)) : ℚ)) l) := by
  intro fuel
  induction fuel with
  | zero =>
      intro k s
      simp [noKeepLoopJs]
  | succ fuel ih =>
      intro k s
      have hadd : jsAdd (.fin (36 : ℚ)) (.fin l) = .fin (36 + l) := rfl
      have hsub1 : jsSub (.fin (36 + l)) (.fin n) = .fin (36 + l - n) := rfl
      have hsub2 : jsSub (.fin l) (.fin (k : ℚ)) = .fin (l - (k : ℚ)) := rfl
      have hsub3 : jsSub (.fin n) (.fin (k : ℚ)) = .fin (n - (k : ℚ)) := rfl
      have hplnum : jsMul (combinationJs (.fin n) (.fin (k : ℚ)))
          (combinationJs (jsSub (jsAdd (.fin 36) (.fin l)) (.fin n))
            (jsSub (.fin l) (.fin (k : ℚ)))) =
          .fin (combination n (k : ℚ) * combination (36 + l - n) (l - (k : ℚ))) := by
        rw [hadd, hsub1, hsub2, combinationJs_fin, combinationJs_fin]
        rfl
      have hpl : (if (.fin den : JsNum) = .fin 0 then (.fin 0 : JsNum)
          else jsDiv (.fin (combination n (k : ℚ) * combination (36 + l - n) (l - (k : ℚ))))
            (.fin den)) =
          .fin (if den = 0 then 0
            else combination n (k : ℚ) * combination (36 + l - n) (l - (k : ℚ)) / den) := by
        by_cases hden : den = 0
        · subst hden
          rw [if_pos rfl, if_pos rfl]
        · rw [if_neg (by simpa using hden), if_neg hden]
          simp only [jsDiv]
          rw [if_neg hden]
      have hq : zeroHitHypergeometricJs (.fin 36) (jsSub (.fin n) (.fin (k : ℚ))) (.fin l) =
          .fin (zeroHitHypergeometric 36 (n - (k : ℚ)) l) := by
        rw [hsub3, zeroHitJs_fin]
      show noKeepLoopJs (.fin n) (.fin l) (.fin den) fuel (k + 1)
          (jsAdd (.fin s) (jsMul
            (if (.fin den : JsNum) = .fin 0 then (.fin 0 : JsNum)
             else jsDiv (jsMul (combinationJs (.fin n) (.fin (k : ℚ)))
               (combinationJs (jsSub (jsAdd (.fin 36) (.fin l)) (.fin n))
                 (jsSub (.fin l) (.fin (k : ℚ))))) (.fin den))
            (zeroHitHypergeometricJs (.fin 36) (jsSub (.fin n) (.fin (k : ℚ))) (.fin l)))) = _
      rw [hplnum, hpl, hq]
      have hmul : jsMul (.fin (if den = 0 then 0
          else combination n (k : ℚ) * combination (36 + l - n) (l - (k : ℚ)) / den))
          (.fin (zeroHitHypergeometric 36 (n - (k : ℚ)) l)) =
          .fin ((if den = 0 then 0
            else combination n (k : ℚ) * combination (36 + l - n) (l - (k : ℚ)) / den) *
            zeroHitHypergeometric 36 (n - (k : ℚ)) l) := rfl
      rw [hmul]
      have haddS : jsAdd (.fin s) (.fin ((if den = 0 then 0
          else combination n (k : ℚ) * combination (36 + l - n) (l - (k : ℚ)) / den) *
          zeroHitHypergeometric 36 (n - (k : ℚ)) l)) =
          .fin (s + (if den = 0 then 0
            else combination n (k : ℚ) * combination (36 + l - n) (l - (k : ℚ)) / den) *
            zeroHitHypergeometric 36 (n - (k : ℚ)) l) := rfl
      rw [haddS, ih]
      congr 1
      rw [Finset.sum_range_succ']
      have hterm : ∀ j ∈ Finset.range fuel,
          (if den = 0 then 0
           else combination n (((k + 1 + j : ℕ)) : ℚ) *
             combination (36 + l - n) (l - (((k + 1 + j : ℕ)) : ℚ)) / den) *
          zeroHitHypergeometric 36 (n - (((k + 1 + j : ℕ)) : ℚ)) l =
          (if den = 0 then 0
           else combination n (((k + (j + 1) : ℕ)) : ℚ) *
             combination (36 + l - n) (l - (((k + (j + 1) : ℕ)) : ℚ)) / den) *
          zeroHitHypergeometric 36 (n - (((k + (j + 1) : ℕ)) : ℚ)) l := by
        intro j hj
        have he : k + 1 + j = k + (j + 1) := by omega
        rw [he]
      rw [Finset.sum_congr rfl hterm, Nat.add_zero]
      ring

theorem probKeepJs_def (a b c : JsNum) :
    probabilityAtLeastOneJs .keep a b c =
      jsClamp (jsSub (.fin 1) (jsMul (jsMul
        (zeroHitHypergeometricJs (.fin 40) (jsClamp (jsFloor b) (.fin 0) (.fin 40)) (.fin 4))
        (zeroHitHypergeometricJs (.fin 36) (jsClamp (jsFloor b) (.fin 0) (.fin 40))
          (jsClamp (jsFloor a) (.fin 0) (.fin 40))))
        (zeroHitHypergeometricJs (.fin 36) (jsClamp (jsFloor b) (.fin 0) (.fin 40))
          (jsClamp (jsFloor c) (.fin 0) (.fin 40))))) (.fin 0) (.fin 1) := rfl

theorem probNoKeepJs_def (a b c : JsNum) :
    probabilityAtLeastOneJs .noKeep a b c =
      jsClamp (jsSub (.fin 1) (jsMul
        (zeroHitHypergeometricJs (.fin 36) (jsClamp (jsFloor b) (.fin 0) (.fin 40))
          (jsClamp (jsFloor c) (.fin 0) (.fin 40)))
        (noKeepLoopJs (jsClamp (jsFloor b) (.fin 0) (.fin 40))
          (jsClamp (jsFloor a) (.fin 0) (.fin 40))
          (combinationJs (jsAdd (.fin 36) (jsClamp (jsFloor a) (.fin 0) (.fin 40)))
            (jsClamp (jsFloor a) (.fin 0) (.fin 40)))
          (jsLoopCountLe (jsMin (jsClamp (jsFloor a) (.fin 0) (.fin 40))
            (jsClamp (jsFloor b) (.fin 0) (.fin 40)))) 0 (.fin 0))))
        (.fin 0) (.fin 1) := rfl

theorem probKeepRJs_def (n l m : JsNum) :
    probabilityAtLeastOneKeepJs n l m =
      jsClamp (jsSub (.fin 1) (jsMul
        (zeroHitHypergeometricJs (.fin 36) (jsClamp (jsFloor n) (.fin 0) (.fin 40))
          (jsClamp (jsFloor l) (.fin 0) (.fin 4)))
        (zeroHitHypergeometricJs (.fin 36) (jsClamp (jsFloor n) (.fin 0) (.fin 40))
          (jsClamp (jsFloor m) (.fin 0) (.fin 40))))) (.fin 0) (.fin 1) := rfl

/-- On NaN-free inputs the Js-layer keep model computes the Q-layer value. -/
theorem probJs_keep_fin {a b c : JsNum} (ha : a.isNaN = false) (hb : b.isNaN = false)
    (hc : c.isNaN = false) :
    probabilityAtLeastOneJs .keep a b c =
      .fin (probabilityAtLeastOne .keep (toQ a) (toQ b) (toQ c)) := by
  rw [probKeepJs_def, jsClampFloor40 ha, jsClampFloor40 hb, jsClampFloor40 hc,
    zeroHitJs_fin, zeroHitJs_fin, zeroHitJs_fin, probKeep_def]
  rfl

/-- On NaN-free inputs the Js-layer no-keep model computes the Q-layer value. -/
theorem probJs_noKeep_fin {a b c : JsNum} (ha : a.isNaN = false) (hb : b.isNaN = false)
    (hc : c.isNaN = false) :
    probabilityAtLeastOneJs .noKeep a b c =
      .fin (probabilityAtLeastOne .noKeep (toQ a) (toQ b) (toQ c)) := by
  rw [probNoKeepJs_def, jsClampFloor40 ha, jsClampFloor40 hb, jsClampFloor40 hc]
  have hadd : jsAdd (.fin (36 : ℚ)) (.fin (clamp ((⌊toQ a⌋ : ℚ)) 0 40)) =
      .fin (36 + clamp ((⌊toQ a⌋ : ℚ)) 0 40) := rfl
  rw [hadd, combinationJs_fin, zeroHitJs_fin]
  have hmin : jsMin (.fin (clamp ((⌊toQ a⌋ : ℚ)) 0 40)) (.fin (clamp ((⌊toQ b⌋ : ℚ)) 0 40)) =
      .fin (min (clamp ((⌊toQ a⌋ : ℚ)) 0 40) (clamp ((⌊toQ b⌋ : ℚ)) 0 40)) := rfl
  rw [hmin]
  have hcount : jsLoopCountLe (.fin (min (clamp ((⌊toQ a⌋ : ℚ)) 0 40)
      (clamp ((⌊toQ b⌋ : ℚ)) 0 40))) =
      ⌊min (clamp ((⌊toQ a⌋ : ℚ)) 0 40) (clamp ((⌊toQ b⌋ : ℚ)) 0 40)⌋.toNat + 1 := by
    show (⌊min (clamp ((⌊toQ a⌋ : ℚ)) 0 40) (clamp ((⌊toQ b⌋ : ℚ)) 0 40)⌋ + 1).toNat = _
    have h0 : 0 ≤ ⌊min (clamp ((⌊toQ a⌋ : ℚ)) 0 40) (clamp ((⌊toQ b⌋ : ℚ)) 0 40)⌋ :=
      Int.floor_nonneg.2 (le_min (clamp_nonneg _ _) (clamp_nonneg _ _))
    omega
  rw [hcount, noKeepLoopJs_fin, probNoKeep_def]
  simp only [Nat.zero_add, zero_add]
  rfl

/-- On NaN-free inputs the Js-layer restricted model computes the Q-layer value. -/
theorem probJs_keepR_fin {n l m : JsNum} (hn : n.isNaN = false) (hl : l.isNaN = false)
    (hm : m.isNaN = false) :
    probabilityAtLeastOneKeepJs n l m =
      .fin (probabilityAtLeastOneKeep (toQ n) (toQ l) (toQ m)) := by
  rw [probKeepRJs_def, jsClampFloor40 hn, jsClampFloor4 hl, jsClampFloor40 hm,
    zeroHitJs_fin, zeroHitJs_fin, probKeepR_def]
  rfl

/-- The contract stated by the specification for `combination`, written
independently of the source loop: 0 for non-finite input, 0 for
`k < 0` or `k > n` after flooring, 1 for `kEff = 0`, and otherwise the
product `Π_{i=1..kEff} (n - kEff + i) / i` as an explicit `Finset.prod`. -/
def combinationSpec : JsNum → JsNum → JsNum
  | .fin nq, .fin kq =>
      let nf : ℤ := ⌊nq⌋
      let kf : ℤ := ⌊kq⌋
      if kf < 0 ∨ nf < kf then .fin 0
      else
        let kEff : ℤ := min kf (nf - kf)
        if kEff = 0 then .fin 1
        else .fin (∏ i ∈ Finset.range kEff.toNat,
          (((nf : ℚ) - (kEff : ℚ) + ((1 + i : ℕ) : ℚ)) / ((1 + i : ℕ) : ℚ)))
  | _, _ => .fin 0

theorem combinationJs_eq_spec (x y : JsNum) : combinationJs x y = combinationSpec x y := by
  cases x with
  | nan => cases y <;> rfl
  | posInf => cases y <;> rfl
  | negInf => cases y <;> rfl
  | fin nq =>
      cases y with
      | nan => rfl
      | posInf => rfl
      | negInf => rfl
      | fin kq =>
          unfold combinationJs combinationSpec
          by_cases hg : ⌊kq⌋ < 0 ∨ ⌊nq⌋ < ⌊kq⌋
          · simp only [if_pos hg]
          by_cases hE : min ⌊kq⌋ (⌊nq⌋ - ⌊kq⌋) = 0
          · simp only [if_neg hg, if_pos hE]
          · simp only [if_neg hg, if_neg hE]
            rw [combLoopJs_fin _ _ _ _ (le_refl 1), combLoop_eq, one_mul]

/-!
## The claims
-/

/-- Claim C1, as stated, is false: a NaN `targetsInDeck` survives the
clamping (`Math.max(0, Math.min(40, NaN))` is NaN) and propagates through
the probability arithmetic and the final clamp, so `probabilityAtLeastOne`
returns NaN, which is not in `[0,1]`. -/
theorem C1_nan_counterexample :
    ¬ jsInUnit (probabilityAtLeastOneJs .keep (.fin 0) .nan (.fin 1)) := by
  have h : probabilityAtLeastOneJs .keep (.fin 0) .nan (.fin 1) = JsNum.nan := by decide
  rw [h]
  simp [jsInUnit]

/-- Claim C1 (amended): for every policy tag and all NaN-free numeric
arguments - including `+Infinity`, `-Infinity`, and negative or
out-of-range finite values - `probabilityAtLeastOne` and
`probabilityAtLeastOneKeep` return a number in the closed interval
`[0,1]`; such input is absorbed by flooring and clamping before any
probability arithmetic, and no call raises. -/
theorem C1_amended_in_unit (keepMode : KeepMode) (a b c : JsNum)
    (ha : a.isNaN = false) (hb : b.isNaN = false) (hc : c.isNaN = false) :
    jsInUnit (probabilityAtLeastOneJs keepMode a b c) ∧
      jsInUnit (probabilityAtLeastOneKeepJs a b c) := by
  constructor
  · cases keepMode
    · rw [probJs_keep_fin ha hb hc]
      exact probabilityAtLeastOne_mem .keep _ _ _
    · rw [probJs_noKeep_fin ha hb hc]
      exact probabilityAtLeastOne_mem .noKeep _ _ _
  · rw [probJs_keepR_fin ha hb hc]
    exact probabilityAtLeastOneKeep_mem _ _ _

theorem C1_amended_witness :
    ((JsNum.negInf).isNaN = false ∧ (JsNum.fin 3).isNaN = false ∧
        (JsNum.posInf).isNaN = false) ∧
      jsInUnit (probabilityAtLeastOneJs .keep .negInf (.fin 3) .posInf) ∧
        jsInUnit (probabilityAtLeastOneKeepJs .negInf (.fin 3) .posInf) :=
  ⟨⟨rfl, rfl, rfl⟩, C1_amended_in_unit .keep .negInf (.fin 3) .posInf rfl rfl rfl⟩

/-- Claim C2: the keep-policy model first floors and clamps `n`, `l`, `m`
to `[0,40]` and returns
`clamp(1 - zeroHit(40,n,4) * zeroHit(36,n,l) * zeroHit(36,n,m), 0, 1)`. -/
theorem C2_keep_formula (mulliganCount targetsInDeck drawsFromDeck : ℚ) :
    probabilityAtLeastOne .keep mulliganCount targetsInDeck drawsFromDeck =
      clamp (1 - zeroHitHypergeometric 40 (clamp ((⌊targetsInDeck⌋ : ℚ)) 0 40) 4 *
        zeroHitHypergeometric 36 (clamp ((⌊targetsInDeck⌋ : ℚ)) 0 40)
          (clamp ((⌊mulliganCount⌋ : ℚ)) 0 40) *
        zeroHitHypergeometric 36 (clamp ((⌊targetsInDeck⌋ : ℚ)) 0 40)
          (clamp ((⌊drawsFromDeck⌋ : ℚ)) 0 40)) 0 1 :=
  probKeep_def mulliganCount targetsInDeck drawsFromDeck

/-- Claim C3: the no-keep policy model returns
`clamp(1 - Q_m * Σ_{k=0..min(l,n)} P_l(k) * Q_l(k), 0, 1)` with
`Q_m = zeroHit(36,n,m)`,
`P_l(k) = combination(n,k) * combination(36+l-n, l-k) / combination(36+l, l)`
(each `P_l(k)` taken to be 0 when `combination(36+l, l) = 0`), and
`Q_l(k) = zeroHit(36, n-k, l)`, after flooring and clamping `n`, `l`, `m`
to `[0,40]`. -/
theorem C3_noKeep_formula (mulliganCount targetsInDeck drawsFromDeck : ℚ) :
    probabilityAtLeastOne .noKeep mulliganCount targetsInDeck drawsFromDeck =
      clamp (1 - zeroHitHypergeometric 36 (clamp ((⌊targetsInDeck⌋ : ℚ)) 0 40)
          (clamp ((⌊drawsFromDeck⌋ : ℚ)) 0 40) *
        ∑ k ∈ Finset.range (⌊min (clamp ((⌊mulliganCount⌋ : ℚ)) 0 40)
            (clamp ((⌊targetsInDeck⌋ : ℚ)) 0 40)⌋.toNat + 1),
          (if combination (36 + clamp ((⌊mulliganCount⌋ : ℚ)) 0 40)
              (clamp ((⌊mulliganCount⌋ : ℚ)) 0 40) = 0 then 0
           else combination (clamp ((⌊targetsInDeck⌋ : ℚ)) 0 40) (k : ℚ) *
             combination (36 + clamp ((⌊mulliganCount⌋ : ℚ)) 0 40 -
                 clamp ((⌊targetsInDeck⌋ : ℚ)) 0 40)
               (clamp ((⌊mulliganCount⌋ : ℚ)) 0 40 - (k : ℚ)) /
             combination (36 + clamp ((⌊mulliganCount⌋ : ℚ)) 0 40)
               (clamp ((⌊mulliganCount⌋ : ℚ)) 0 40)) *
          zeroHitHypergeometric 36 (clamp ((⌊targetsInDeck⌋ : ℚ)) 0 40 - (k : ℚ))
            (clamp ((⌊mulliganCount⌋ : ℚ)) 0 40)) 0 1 :=
  probNoKeep_def mulliganCount targetsInDeck drawsFromDeck

/-- Claim C4: the restricted keep-only model floors and clamps `n` to
`[0,40]`, `l` to `[0,4]`, `m` to `[0,40]` and returns
`clamp(1 - zeroHit(36,n,l) * zeroHit(36,n,m), 0, 1)`; in particular no
initial-4-draw factor over the 40-card deck appears. -/
theorem C4_keepR_formula (n l m : ℚ) :
    probabilityAtLeastOneKeep n l m =
      clamp (1 - zeroHitHypergeometric 36 (clamp ((⌊n⌋ : ℚ)) 0 40)
          (clamp ((⌊l⌋ : ℚ)) 0 4) *
        zeroHitHypergeometric 36 (clamp ((⌊n⌋ : ℚ)) 0 40)
          (clamp ((⌊m⌋ : ℚ)) 0 40)) 0 1 :=
  probKeepR_def n l m

/-- Claim C5: the zero-hit ratio applies its short-circuit rules in the
stated priority order (`draws ≤ 0`, `targetInDeck ≤ 0`, `total ≤ 0`,
`draws > total`, `nonTargets < 0`) and otherwise computes the running
product over `i = 0..draws-1` of `(nonTargets - i)/(total - i)`,
returning 0 as soon as a numerator is `≤ 0`. -/
theorem C5_zeroHit_cascade (total targetInDeck draws : ℚ) :
    zeroHitHypergeometric total targetInDeck draws =
      zeroHitRatioSpec total targetInDeck draws :=
  zeroHit_eq_ratioSpec total targetInDeck draws

/-- Claim C6: `combination` returns 0 on non-finite input or when
`k < 0` or `k > n` after flooring, 1 when `kEff = min(k, n-k) = 0`, and
otherwise the product over `i = 1..kEff` of `(n - kEff + i)/i`. -/
theorem C6_combination_contract (x y : JsNum) :
    combinationJs x y = combinationSpec x y :=
  combinationJs_eq_spec x y

/-- Claim C7, as stated, is false: the no-keep model is not non-decreasing
in the mulligan count across the clamp boundary.  Raw mulligan counts 36
and 37 (with one target and no later draws) give probabilities `1/2` and
`36/73` respectively. -/
theorem C7_l_counterexample :
    (36 : ℚ) ≤ 37 ∧
      probabilityAtLeastOne .noKeep 37 1 0 < probabilityAtLeastOne .noKeep 36 1 0 := by
  refine ⟨by norm_num, ?_⟩
  rw [probNoKeep_at_l36, probNoKeep_at_l37]
  norm_num

/-- Claim C7 (amended): `probabilityAtLeastOne` (both policies) and
`probabilityAtLeastOneKeep` are non-decreasing in the later-draw count `m`
and in the target count `n`; they are non-decreasing in the mulligan
count `l` as well, except that for the no-keep policy this holds only up
to `l = 36` (beyond 36 the ratio `zeroHit(36, n-k, l)` short-circuits to
0 and the probability can decrease). -/
theorem C7_amended_monotone :
    (∀ (keepMode : KeepMode) (a b : ℚ) {c c' : ℚ}, c ≤ c' →
      probabilityAtLeastOne keepMode a b c ≤ probabilityAtLeastOne keepMode a b c') ∧
    (∀ (b c : ℚ) {a a' : ℚ}, a ≤ a' →
      probabilityAtLeastOne .keep a b c ≤ probabilityAtLeastOne .keep a' b c) ∧
    (∀ (b c : ℚ) {a a' : ℚ}, a ≤ a' → a' ≤ 36 →
      probabilityAtLeastOne .noKeep a b c ≤ probabilityAtLeastOne .noKeep a' b c) ∧
    (∀ (keepMode : KeepMode) (a c : ℚ) {b b' : ℚ}, b ≤ b' →
      probabilityAtLeastOne keepMode a b c ≤ probabilityAtLeastOne keepMode a b' c) ∧
    (∀ (n l : ℚ) {m m' : ℚ}, m ≤ m' →
      probabilityAtLeastOneKeep n l m ≤ probabilityAtLeastOneKeep n l m') ∧
    (∀ (n m : ℚ) {l l' : ℚ}, l ≤ l' →
      probabilityAtLeastOneKeep n l m ≤ probabilityAtLeastOneKeep n l' m) ∧
    (∀ (l m : ℚ) {n n' : ℚ}, n ≤ n' →
      probabilityAtLeastOneKeep n l m ≤ probabilityAtLeastOneKeep n' l m) := by
  refine ⟨?_, ?_, ?_, ?_, ?_, ?_, ?_⟩
  · intro keepMode a b c c' hc
    cases keepMode
    · exact probKeep_mono (le_refl a) (le_refl b) hc
    · exact probNoKeep_mono_m a b hc
  · intro b c a a' ha
    exact probKeep_mono ha (le_refl b) (le_refl c)
  · intro b c a a' ha ha36
    exact probNoKeep_mono_l b c ha ha36
  · intro keepMode a c b b' hb
    cases keepMode
    · exact probKeep_mono (le_refl a) hb (le_refl c)
    · exact probNoKeep_mono_n a c hb
  · intro n l m m' hm
    exact probKeepR_mono (le_refl n) (le_refl l) hm
  · intro n m l l' hl
    exact probKeepR_mono (le_refl n) hl (le_refl m)
  · intro l m n n' hn
    exact probKeepR_mono hn (le_refl l) (le_refl m)

theorem C7_amended_witness :
    (0 : ℚ) ≤ 1 ∧
      probabilityAtLeastOne .keep 0 3 0 ≤ probabilityAtLeastOne .keep 0 3 1 :=
  ⟨by norm_num, C7_amended_monotone.1 .keep 0 3 (by norm_num)⟩

/-- Claim C8, as stated, is false: with `total = 5`, `targetInDeck = 0`,
`draws = 6` we have `draws > total - targetInDeck`, but the
`targetInDeck ≤ 0` short-circuit fires first and the ratio is 1, not 0. -/
theorem C8_counterexample :
    (5 : ℚ) - 0 < 6 ∧ zeroHitHypergeometric 5 0 6 ≠ 0 := by
  constructor
  · norm_num
  · norm_num [zeroHitHypergeometric]

/-- Claim C8 (amended): for every integer `total ≥ 1`, `targetInDeck ≥ 1`
and `draws ≥ 1` with `draws > total - targetInDeck`, the zero-hit ratio
is 0 (not enough non-target cards exist to make all draws miss). -/
theorem C8_amended_zero {t k d : ℤ} (ht : 1 ≤ t) (hk : 1 ≤ k) (hd : 1 ≤ d)
    (hgt : t - k < d) :
    zeroHitHypergeometric (t : ℚ) (k : ℚ) (d : ℚ) = 0 :=
  zeroHit_zero_of_many_draws ht hk hd hgt

theorem C8_amended_witness :
    ((1 : ℤ) ≤ 5 ∧ (1 : ℤ) ≤ 3 ∧ (1 : ℤ) ≤ 4 ∧ (5 : ℤ) - 3 < 4) ∧
      zeroHitHypergeometric ((5 : ℤ) : ℚ) ((3 : ℤ) : ℚ) ((4 : ℤ) : ℚ) = 0 :=
  ⟨⟨by decide, by decide, by decide, by decide⟩,
    C8_amended_zero (by decide) (by decide) (by decide) (by decide)⟩

/-- Claim C9: for `n = 3`, `l = 0` and every integer `m`, the no-keep
summation collapses to its single `k = 0` term, the no-keep model equals
the restricted keep-only model's later-draw-only value, and
`probabilityAtLeastOneKeep(3, 0, m) = 1 - zeroHitRatio(36, 3, m)`. -/
theorem C9_collapse (m : ℤ) :
    probabilityAtLeastOne .noKeep 0 3 ((m : ℤ) : ℚ) =
        probabilityAtLeastOneKeep 3 0 ((m : ℤ) : ℚ) ∧
      probabilityAtLeastOneKeep 3 0 ((m : ℤ) : ℚ) =
        1 - zeroHitHypergeometric 36 3 ((m : ℤ) : ℚ) :=
  noKeep_collapse m

/-- Claim C10: for all integer inputs with `targetInDeck ≥ 1` and
`1 ≤ draws ≤ total - targetInDeck`, the zero-hit ratio is strictly
positive and at most 1; in particular on such inputs the function returns
0 only when `draws` exceeds `total - targetInDeck`. -/
theorem C10_positivity {t k d : ℤ} (hk : 1 ≤ k) (hd : 1 ≤ d) (hdt : d ≤ t - k) :
    0 < zeroHitHypergeometric (t : ℚ) (k : ℚ) (d : ℚ) ∧
      zeroHitHypergeometric (t : ℚ) (k : ℚ) (d : ℚ) ≤ 1 :=
  ⟨zeroHit_pos_int hk hd hdt, zeroHit_le_one _ _ _⟩

theorem C10_witness :
    ((1 : ℤ) ≤ 2 ∧ (1 : ℤ) ≤ 3 ∧ (3 : ℤ) ≤ 10 - 2) ∧
      (0 < zeroHitHypergeometric ((10 : ℤ) : ℚ) ((2 : ℤ) : ℚ) ((3 : ℤ) : ℚ) ∧
        zeroHitHypergeometric ((10 : ℤ) : ℚ) ((2 : ℤ) : ℚ) ((3 : ℤ) : ℚ) ≤ 1) :=
  ⟨⟨by decide, by decide, by decide⟩,
    C10_positivity (by decide) (by decide) (by decide)⟩
